import Mathlib

/-!
Verification of the Kaleidoscope front end (lexer, parser, compiler) found in
src/kaleidoscope/src/{lexer.rs, parser.rs, compiler.rs}.

Shallow embedding conventions:
- Source text is a `List Char`; byte positions coincide with char positions
  for the ASCII programs the claims are about.
- Rust `f64` numeric-literal values are modelled as exact rationals `ℚ`
  (the value of a number token is a function of the scanned text only, and
  the claims compare values produced by the same parse on both sides, so the
  rounding step of `str::parse::<f64>` is irrelevant to them).
- `char::is_whitespace` and `char::is_alphanumeric` are modelled by their
  ASCII restrictions (`Char.isWhitespace`, `Char.isAlphanum`); no claim
  involves non-ASCII input.
- Loops that the Rust code runs without a termination guarantee are modelled
  with explicit outcomes: `LexStep.diverges` for the comment loop that spins
  forever on `chars.next() = None`, and a `panics` outcome for
  `parse().unwrap()` failing on a malformed numeric scan.
-/

namespace Kal

/-- Token type, mirroring `enum Token` in lexer.rs. `Number` carries the
parsed value (as an exact rational, see the module comment). -/
inductive Token where
  | Binary
  | Comma
  | Comment
  | Def
  | Else
  | EOF
  | Extern
  | For
  | Ident (s : String)
  | If
  | In
  | LParen
  | Number (q : ℚ)
  | Op (c : Char)
  | RParen
  | Then
  | Unary
  | Var
deriving DecidableEq, Repr

/-- Characters accepted inside a numeric-literal scan: the Rust loop
continues while `ch == '.' || ch.is_digit(16)` (any hexadecimal digit). -/
def isNumScanChar (c : Char) : Bool :=
  c = '.' || c.isDigit || ('a' ≤ c && c ≤ 'f') || ('A' ≤ c && c ≤ 'F')

/-- Characters accepted inside an identifier scan: the Rust loop continues
while `ch == '_' || ch.is_alphanumeric()` (ASCII restriction). -/
def isIdentChar (c : Char) : Bool :=
  c = '_' || c.isAlphanum

/-- First character of an identifier: `'a'..='z' | 'A'..='Z' | '_'`. -/
def isIdentStart (c : Char) : Bool :=
  c.isAlpha || c = '_'

/-- Numeric value of a decimal digit character. -/
def digVal (c : Char) : Nat := c.toNat - '0'.toNat

/-- Value of a run of decimal digits read left to right. -/
def digitsToNat (ds : List Char) : Nat :=
  ds.foldl (fun a c => a * 10 + digVal c) 0

/-- Exponent marker characters accepted by `str::parse::<f64>`. -/
def isExpChar (c : Char) : Bool :=
  c = 'e' || c = 'E'

/-- Model of Rust `str::parse::<f64>` restricted to the character set a
numeric scan can produce (digits, `.`, hexadecimal letters): an optional
integer part, an optional `.` plus fraction digits (at least one digit in
the mantissa overall), and an optional nonempty all-digit exponent after
`e`/`E`.  Any other shape (two dots, stray hexadecimal letters, empty
exponent) fails, which in the Rust code makes `unwrap()` panic.  The value
is returned as an exact rational, built by a single `mkRat` over natural
arithmetic: with integer digits `i`, fraction digits `f` and exponent `e`,
the value is `digits(i ++ f) * 10 ^ e / 10 ^ |f|`. -/
def parseF64? (cs : List Char) : Option ℚ :=
  let mant := cs.takeWhile (fun c => !(isExpChar c))
  let rest := cs.dropWhile (fun c => !(isExpChar c))
  let exp? : Option (Option (List Char)) :=
    match rest with
    | [] => some none
    | _ :: es =>
      if es.isEmpty then none
      else if es.all Char.isDigit then some (some es) else none
  match exp? with
  | none => none
  | some expDigits? =>
    let intD := mant.takeWhile Char.isDigit
    let rest2 := mant.dropWhile Char.isDigit
    let frac? : Option (List Char) :=
      match rest2 with
      | [] => some []
      | '.' :: fs => if fs.all Char.isDigit then some fs else none
      | _ => none
    match frac? with
    | none => none
    | some frac =>
      if intD.length + frac.length = 0 then none
      else
        let e : Nat := match expDigits? with
          | none => 0
          | some es => digitsToNat es
        some (mkRat (digitsToNat (intD ++ frac) * 10 ^ e) (10 ^ frac.length))

/-- Outcome of one call to `Lexer::lexer`:
either a token together with the characters remaining after it, or the
comment loop spinning forever (`diverges`), or `parse().unwrap()` panicking
on a malformed numeric scan (`panics`). -/
inductive LexStep where
  | tok (t : Token) (rest : List Char)
  | diverges
  | panics
deriving DecidableEq, Repr

/-- Keyword table applied to a scanned identifier; mirrors the `match` at
the end of the identifier branch of `Lexer::lexer` (note that `"then"` is
NOT in that table, so `then` lexes as an ordinary identifier). -/
def keywordOf (s : String) : Token :=
  if s = "def" then .Def
  else if s = "extern" then .Extern
  else if s = "if" then .If
  else if s = "else" then .Else
  else if s = "for" then .For
  else if s = "in" then .In
  else if s = "unary" then .Unary
  else if s = "binary" then .Binary
  else if s = "var" then .Var
  else .Ident s

/-- Dispatch of `Lexer::lexer` on the first non-whitespace character `c`,
with `rest` the characters after it.

Faithfully reproduced quirks:
- the numeric and identifier loops `return Ok(Token::EOF)` when `peek()`
  yields `None`, i.e. when the scan reaches the end of the input the
  characters scanned so far are DISCARDED and the end-of-input marker is
  returned instead of the token;
- the comment loop `loop { chars.next() ... if ch == Some('\n') break }`
  never terminates when no `'\n'` remains, which is `diverges` here;
- a scanned numeric run whose text `str::parse::<f64>` rejects makes
  `unwrap()` panic, which is `panics` here. -/
def lexCore (c : Char) (rest : List Char) : LexStep :=
  if c = '(' then .tok .LParen rest
    else if c = ')' then .tok .RParen rest
    else if c = ',' then .tok .Comma rest
    else if c = '#' then
      if rest.contains '\n' then
        .tok .Comment ((rest.dropWhile (fun ch => !(ch = '\n'))).drop 1)
      else .diverges
    else if c = '.' || c.isDigit then
      if rest.all isNumScanChar then .tok .EOF []
      else
        match parseF64? (c :: rest.takeWhile isNumScanChar) with
        | some q => .tok (.Number q) (rest.dropWhile isNumScanChar)
        | none => .panics
    else if isIdentStart c then
      if rest.all isIdentChar then .tok .EOF []
      else
        .tok (keywordOf (String.mk (c :: rest.takeWhile isIdentChar)))
          (rest.dropWhile isIdentChar)
    else .tok (.Op c) rest

/-- One call of `Lexer::lexer`: skip whitespace (end of input there yields
the `EOF` marker), then dispatch on the first character via `lexCore`. -/
def lexer1 (cs : List Char) : LexStep :=
  match cs.dropWhile Char.isWhitespace with
  | [] => .tok .EOF []
  | c :: rest => lexCore c rest

/-- The token stream actually handed to the parser: `Parser::new` collects
the `Lexer` iterator, whose `next` maps `Ok(Token::EOF)` and `Err(_)` to
`None` and every other `Ok(token)` (including `Token::Comment`) to
`Some(token)`.  `fuel` bounds the number of iterator steps; since every
yielded token consumes at least one character, any `fuel` larger than the
input length is enough, and a `none` result for every fuel means the
collection never terminates normally (comment-loop divergence or a numeric
`unwrap` panic). -/
def collectAux : Nat → List Char → Option (List Token)
  | 0, _ => none
  | fuel + 1, cs =>
    match lexer1 cs with
    | .tok .EOF _ => some []
    | .tok t rest => (collectAux fuel rest).map (t :: ·)
    | .diverges => none
    | .panics => none

/-- Token collection with adequate fuel. -/
def collectTokens (cs : List Char) : Option (List Token) :=
  collectAux (cs.length + 1) cs

/-! Helper lemmas about scanning over an input that still contains a `#`
that no later newline terminates. -/

theorem dropWhile_append_hash (p : Char → Bool) (x z : List Char)
    (hp : p '#' = false) :
    (x ++ '#' :: z).dropWhile p = x.dropWhile p ++ '#' :: z := by
  induction x with
  | nil => simp [List.dropWhile, hp]
  | cons c x ih =>
    by_cases hc : p c
    · simpa [List.dropWhile, hc] using ih
    · simp [List.dropWhile, hc]

theorem all_append_hash (p : Char → Bool) (x z : List Char)
    (hp : p '#' = false) :
    (x ++ '#' :: z).all p = false := by
  simp [List.all_append, hp]

theorem contains_append_hash (x z : List Char)
    (hz : z.contains '\n' = false) :
    (x ++ '#' :: z).contains '\n' = x.contains '\n' := by
  simp at hz ⊢
  tauto

theorem dropWhile_newline_append (x w : List Char)
    (hx : x.contains '\n' = true) :
    (x ++ w).dropWhile (fun ch => !(ch = '\n'))
      = x.dropWhile (fun ch => !(ch = '\n')) ++ w ∧
    x.dropWhile (fun ch => !(ch = '\n')) ≠ [] := by
  induction x with
  | nil => simp at hx
  | cons c x ih =>
    by_cases hc : c = '\n'
    · subst hc
      constructor <;> simp [List.dropWhile_cons]
    · have hx' : x.contains '\n' = true := by
        have h := hx
        simp at h
        rcases h with h | h
        · exact absurd h.symm hc
        · simpa using h
      have hrec := ih hx'
      constructor
      · simp only [List.cons_append, List.dropWhile_cons, hc]
        simpa [hc] using hrec.1
      · simpa [List.dropWhile_cons, hc] using hrec.2

theorem drop_one_append (D w : List Char) (hD : D ≠ []) :
    (D ++ w).drop 1 = D.drop 1 ++ w := by
  cases D with
  | nil => exact absurd rfl hD
  | cons c D => simp

theorem keywordOf_ne_EOF (s : String) : keywordOf s ≠ Token.EOF := by
  unfold keywordOf
  repeat' split
  all_goals simp

/-- Core step lemma for C9: when the remaining characters still contain a
`#` after which no newline ever occurs, one lexer step either diverges in
the comment loop, panics on a malformed number, or yields a non-EOF token
whose remaining characters still have that shape. -/
theorem lexCore_hash_suffix (c : Char) (x z : List Char)
    (hz : z.contains '\n' = false) :
    lexCore c (x ++ '#' :: z) = .diverges ∨
    lexCore c (x ++ '#' :: z) = .panics ∨
    ∃ t x', lexCore c (x ++ '#' :: z) = .tok t (x' ++ '#' :: z) ∧ t ≠ .EOF := by
  unfold lexCore
  by_cases h1 : c = '('
  · rw [if_pos h1]
    exact Or.inr (Or.inr ⟨.LParen, x, rfl, by simp⟩)
  rw [if_neg h1]
  by_cases h2 : c = ')'
  · rw [if_pos h2]
    exact Or.inr (Or.inr ⟨.RParen, x, rfl, by simp⟩)
  rw [if_neg h2]
  by_cases h3 : c = ','
  · rw [if_pos h3]
    exact Or.inr (Or.inr ⟨.Comma, x, rfl, by simp⟩)
  rw [if_neg h3]
  by_cases h4 : c = '#'
  · rw [if_pos h4, contains_append_hash x z hz]
    by_cases hx : x.contains '\n' = true
    · rw [hx, if_pos rfl]
      have hd := dropWhile_newline_append x ('#' :: z) hx
      rw [hd.1, drop_one_append _ _ hd.2]
      exact Or.inr (Or.inr
        ⟨.Comment, (x.dropWhile (fun ch => !(ch = '\n'))).drop 1, rfl, by simp⟩)
    · simp only [Bool.not_eq_true] at hx
      rw [hx, if_neg (by decide)]
      exact Or.inl rfl
  rw [if_neg h4]
  by_cases h5 : (decide (c = '.') || c.isDigit) = true
  · rw [h5, if_pos rfl, all_append_hash isNumScanChar x z (by decide),
        if_neg (by decide)]
    cases hp : parseF64? (c :: (x ++ '#' :: z).takeWhile isNumScanChar) with
    | none => exact Or.inr (Or.inl rfl)
    | some q =>
      rw [dropWhile_append_hash isNumScanChar x z (by decide)]
      exact Or.inr (Or.inr ⟨.Number q, x.dropWhile isNumScanChar, rfl, by simp⟩)
  rw [if_neg h5]
  by_cases h6 : isIdentStart c = true
  · rw [if_pos h6, all_append_hash isIdentChar x z (by decide),
        if_neg (by decide), dropWhile_append_hash isIdentChar x z (by decide)]
    exact Or.inr (Or.inr ⟨_, x.dropWhile isIdentChar, rfl, keywordOf_ne_EOF _⟩)
  · rw [if_neg h6]
    exact Or.inr (Or.inr ⟨.Op c, x, rfl, by simp⟩)

/-- Lift of `lexCore_hash_suffix` to a full `lexer1` step. -/
theorem lexer1_hash_suffix (x z : List Char) (hz : z.contains '\n' = false) :
    lexer1 (x ++ '#' :: z) = .diverges ∨ lexer1 (x ++ '#' :: z) = .panics ∨
    ∃ t x', lexer1 (x ++ '#' :: z) = .tok t (x' ++ '#' :: z) ∧ t ≠ .EOF := by
  unfold lexer1
  rw [dropWhile_append_hash Char.isWhitespace x z (by decide)]
  cases hw : x.dropWhile Char.isWhitespace with
  | nil =>
    left
    show lexCore '#' z = .diverges
    unfold lexCore
    rw [if_neg (by decide), if_neg (by decide), if_neg (by decide), if_pos rfl,
        hz, if_neg (by decide)]
  | cons c rest =>
    rw [List.cons_append]
    exact lexCore_hash_suffix c rest z hz

/-- C9: for every input whose final characters are a `#` comment that no
newline terminates, the comment-scanning loop of `Lexer::lexer` never
terminates (modelled by `LexStep.diverges`): the call returns neither a
token, nor an error, nor the end-of-input marker, and consequently the
token collection performed by `Parser::new` does not terminate either (it
returns `none` for every amount of fuel). -/
theorem c9_unterminated_comment_diverges :
    (∀ cs tail, cs.dropWhile Char.isWhitespace = '#' :: tail →
        tail.contains '\n' = false → lexer1 cs = .diverges) ∧
    (∀ fuel x z, z.contains '\n' = false →
        collectAux fuel (x ++ '#' :: z) = none) := by
  constructor
  · intro cs tail hdrop hnl
    unfold lexer1
    rw [hdrop]
    show lexCore '#' tail = .diverges
    unfold lexCore
    rw [if_neg (by decide), if_neg (by decide), if_neg (by decide), if_pos rfl,
        hnl, if_neg (by decide)]
  · intro fuel
    induction fuel with
    | zero => intro x z _; rfl
    | succ fuel ih =>
      intro x z hz
      rcases lexer1_hash_suffix x z hz with h | h | ⟨t, x', heq, ht⟩
      · unfold collectAux
        rw [h]
      · unfold collectAux
        rw [h]
      · unfold collectAux
        rw [heq]
        cases t <;> first
          | exact absurd rfl ht
          | simp [ih x' z hz]

/-- Witness for C9 at concrete inputs. -/
theorem c9_unterminated_comment_diverges_witness :
    lexer1 ("#ab".toList) = .diverges ∧
    collectAux 5 ("x ".toList ++ '#' :: "q".toList) = none :=
  ⟨c9_unterminated_comment_diverges.1 "#ab".toList "ab".toList (by decide)
      (by decide),
   c9_unterminated_comment_diverges.2 5 "x ".toList "q".toList (by decide)⟩

/-- C1 (code bug): a decimal literal that is the last token of the input is
LOST.  The numeric-scan loop of `Lexer::lexer` hits `peek() = None` and
executes `return Ok(Token::EOF)`, discarding the scanned digits, so lexing
the source `42` yields no number token at all (the iterator maps the EOF
marker to `None` and the collected stream is empty), while the same literal
followed by a space is lexed to exactly one number token of value 42.  This
contradicts the claim that the literal yields exactly one number token even
when immediately followed by end of input. -/
theorem c1_trailing_literal_dropped :
    lexer1 ("42".toList) = .tok .EOF [] ∧
    collectTokens ("42".toList) = some [] ∧
    collectTokens ("42 ".toList) = some [.Number 42] := by
  refine ⟨by decide, by decide, by decide⟩

/-! ## Parser (parser.rs) -/

/-- Expression AST, mirroring `enum Expr` in parser.rs. -/
inductive Expr where
  | Binary (op : Char) (left right : Expr)
  | Call (funcName : String) (args : List Expr)
  | Conditional (cond consequence alternative : Expr)
  | For (varName : String) (start endE : Expr) (step : Option Expr)
      (body : Expr)
  | Number (q : ℚ)
  | Variable (name : String)
  | VarIn (bindings : List (String × Option Expr)) (body : Expr)

/-- Function prototype, mirroring `struct Prototype`. -/
structure Prototype where
  name : String
  args : List String
  is_op : Bool
  prec : Nat
deriving DecidableEq, Repr

/-- Top-level function, mirroring `struct Function`. -/
structure Function where
  prototype : Prototype
  body : Option Expr
  is_anon : Bool

/-- Modelled from the spec: the fixed reserved name of the implicit
anonymous wrapper function (`crate::ANONYMOUS_FUNCTION_NAME`, defined in
the crate root, which is not among the provided sources; the spec only
says it is a fixed reserved name, and no claim depends on its value). -/
def ANONYMOUS_FUNCTION_NAME : String := "__anonymous__"

/-- Parser state: the collected token vector, the cursor `pos`, and the
operator-precedence table (`HashMap<char, i32>` modelled as an association
list whose insert overwrites). -/
structure PState where
  tokens : List Token
  pos : Nat
  prec : List (Char × Int)
deriving DecidableEq, Repr

/-- Precedence lookup, `self.prec.get(&op)`. -/
def precLookup (m : List (Char × Int)) (c : Char) : Option Int :=
  m.lookup c

/-- Precedence insert with overwrite, `self.prec.insert(op, prec)`. -/
def precInsert (m : List (Char × Int)) (c : Char) (v : Int) :
    List (Char × Int) :=
  (c, v) :: m.filter (fun p => p.1 != c)

/-- Parser failure: a `&'static str` message, a Rust panic (out-of-bounds
`self.tokens[self.pos]` in `curr`), or fuel exhaustion of the embedding
(never reached with adequate fuel). -/
inductive PErr where
  | msg (s : String)
  | panic
  | nofuel
deriving DecidableEq, Repr

/-- Result of a parsing step: a value plus the updated parser state, or a
failure (failures abort the whole parse, so their intermediate state is
never consumed). -/
inductive PRes (α : Type) where
  | ok (a : α) (st : PState)
  | err (e : PErr)
deriving DecidableEq, Repr

def PRes.bind {α β : Type} (r : PRes α) (f : α → PState → PRes β) :
    PRes β :=
  match r with
  | .ok a st => f a st
  | .err e => .err e

/-- The token at the cursor, if any. -/
def PState.curr? (st : PState) : Option Token := st.tokens.get? st.pos

/-- `Parser::at_end`. -/
def PState.atEnd (st : PState) : Bool := st.tokens.length ≤ st.pos

/-- Unchecked cursor advance (used where the Rust code ignores the result
of `advance()` or does `self.pos += 1` directly). -/
def PState.advRaw (st : PState) : PState := { st with pos := st.pos + 1 }

/-- `Parser::advance`: the cursor moves first; the error (note: no trailing
period, unlike the `current` message) is reported when the new cursor is
out of range. -/
def advance (st : PState) : PRes Unit :=
  let st1 := st.advRaw
  if st1.pos < st1.tokens.length then .ok () st1
  else .err (.msg "Unexpected end of file")

/-- `Parser::get_token_precedence`: the precedence of the current token,
`100` for an operator absent from the table, `-1` for anything that is not
an operator token (including end of input). -/
def getTokenPrecedence (st : PState) : Int :=
  match st.curr? with
  | some (.Op c) => (precLookup st.prec c).getD 100
  | _ => -1

/-- `parse_nb_expr`. -/
def parseNbExpr (st : PState) : PRes Expr :=
  match st.curr? with
  | none => .err .panic
  | some (.Number nb) => .ok (.Number nb) st.advRaw
  | some _ => .err (.msg "Expected number literal.")

/-- Parameter-list loop of `parse_prototype` (the `loop` over
comma-separated identifiers, entered when the list is nonempty). -/
def parseParams : Nat → List String → PState → PRes (List String)
  | 0, _, _ => .err .nofuel
  | fuel + 1, acc, st =>
    match st.curr? with
    | none => .err .panic
    | some (.Ident name) =>
      (advance st).bind fun _ st1 =>
        match st1.curr? with
        | none => .err .panic
        | some .RParen => .ok (acc ++ [name]) st1.advRaw
        | some .Comma => parseParams fuel (acc ++ [name]) st1.advRaw
        | some _ =>
          .err (.msg "Expected ',' or ')' character in prototype declaration.")
    | some _ => .err (.msg "Expected identifier in parameter declaration.")

/-- Shared tail of `parse_prototype`: the parenthesized parameter list. -/
def protoParams (fuel : Nat) (name : String) (isOp : Bool) (pr : Nat)
    (st : PState) : PRes Prototype :=
  match st.curr? with
  | none => .err .panic
  | some .LParen =>
    (advance st).bind fun _ st1 =>
      match st1.curr? with
      | none => .err .panic
      | some .RParen => .ok ⟨name, [], isOp, pr⟩ st1.advRaw
      | some _ =>
        (parseParams fuel [] st1).bind fun args st2 =>
          .ok ⟨name, args, isOp, pr⟩ st2
  | some _ => .err (.msg "Expected '(' character in prototype declaration.")

/-- `usize::MAX` on the 64-bit targets the crate builds for. -/
def USIZE_MAX : Nat := 2 ^ 64 - 1

/-- Rust `prec as usize` on an `f64` (parser.rs:166): a saturating cast —
truncation toward zero, clamped to 0 below and to `usize::MAX` above
(NaN, which maps to 0, has no rational representative). -/
def ratToUsize (q : ℚ) : Nat := min q.floor.toNat USIZE_MAX

/-- Rust `prec as i32` on a `usize` (parser.rs:171): a wrapping cast —
the value is reduced mod 2^32 and reinterpreted in two's complement. -/
def usizeToI32 (n : Nat) : Int :=
  if n % 2 ^ 32 < 2 ^ 31 then ((n % 2 ^ 32 : Nat) : Int)
  else ((n % 2 ^ 32 : Nat) : Int) - 2 ^ 32

/-- `parse_prototype`: a plain name, a `binary` declaration (reads one
operator character and an optional precedence literal, default 0, and
inserts/overwrites that operator in the precedence table), or a `unary`
declaration (never touches the table). -/
def parsePrototype (fuel : Nat) (st : PState) : PRes Prototype :=
  match st.curr? with
  | none => .err .panic
  | some (.Ident id) =>
    (advance st).bind fun _ st1 => protoParams fuel id false 0 st1
  | some .Binary =>
    (advance st).bind fun _ st1 =>
      match st1.curr? with
      | none => .err .panic
      | some (.Op c) =>
        (advance st1).bind fun _ st2 =>
          match st2.curr? with
          | none => .err .panic
          | some (.Number q) =>
            (advance st2).bind fun _ st3 =>
              let pr := ratToUsize q
              protoParams fuel ("binary".push c) true pr
                { st3 with prec := precInsert st3.prec c (usizeToI32 pr) }
          | some _ =>
            protoParams fuel ("binary".push c) true 0
              { st2 with prec := precInsert st2.prec c (usizeToI32 0) }
      | some _ =>
        .err (.msg "Expected operator in custom operator declaration.")
  | some .Unary =>
    (advance st).bind fun _ st1 =>
      match st1.curr? with
      | none => .err .panic
      | some (.Op c) =>
        (advance st1).bind fun _ st2 =>
          protoParams fuel ("unary".push c) true 0 st2
      | some _ =>
        .err (.msg "Expected operator in custom operator declaration.")
  | some _ => .err (.msg "Expected identifier in prototype declaration.")

mutual

/-- `parse_expr`. -/
def parseExpr : Nat → PState → PRes Expr
  | 0, _ => .err .nofuel
  | fuel + 1, st =>
    (parseUnaryExpr fuel st).bind fun left st1 =>
      parseBinaryExpr fuel 0 left st1

/-- `parse_unary_expr`. -/
def parseUnaryExpr : Nat → PState → PRes Expr
  | 0, _ => .err .nofuel
  | fuel + 1, st =>
    match st.curr? with
    | none => .err (.msg "Unexpected end of file.")
    | some (.Op c) =>
      (advance st).bind fun _ st1 =>
        (parseUnaryExpr fuel st1).bind fun arg st2 =>
          .ok (.Call ("unary".push c) [arg]) st2
    | some _ => parsePrimary fuel st

/-- `parse_binary_expr` (the precedence-climbing loop, one recursive call
per loop iteration). -/
def parseBinaryExpr : Nat → Int → Expr → PState → PRes Expr
  | 0, _, _, _ => .err .nofuel
  | fuel + 1, prec, left, st =>
    let cp := getTokenPrecedence st
    if cp < prec || st.atEnd then .ok left st
    else
      match st.curr? with
      | none => .err .panic
      | some (.Op op) =>
        (advance st).bind fun _ st1 =>
          (parseUnaryExpr fuel st1).bind fun right st2 =>
            let np := getTokenPrecedence st2
            if cp < np then
              (parseBinaryExpr fuel (cp + 1) right st2).bind fun right2 st3 =>
                parseBinaryExpr fuel prec (.Binary op left right2) st3
            else
              parseBinaryExpr fuel prec (.Binary op left right) st2
      | some _ => .err (.msg "Invalid operator.")

/-- `parse_primary`. -/
def parsePrimary : Nat → PState → PRes Expr
  | 0, _ => .err .nofuel
  | fuel + 1, st =>
    match st.curr? with
    | none => Kal.PRes.err .panic
    | some (.Ident _) => parseIdExpr fuel st
    | some (.Number _) => parseNbExpr st
    | some .LParen => parseParenExpr fuel st
    | some .If => parseConditionalExpr fuel st
    | some .For => parseForExpr fuel st
    | some .Var => parseVarExpr fuel st
    | some _ => .err (.msg "Unknown expression.")

/-- `parse_paren_expr`. -/
def parseParenExpr : Nat → PState → PRes Expr
  | 0, _ => .err .nofuel
  | fuel + 1, st =>
    match st.curr? with
    | none => .err (.msg "Unexpected end of file.")
    | some .LParen =>
      (advance st).bind fun _ st1 =>
        (parseExpr fuel st1).bind fun e st2 =>
          match st2.curr? with
          | none => .err (.msg "Unexpected end of file.")
          | some .RParen => .ok e st2.advRaw
          | some _ =>
            .err (.msg "Expected ')' character at end of parenthesized expression.")
    | some _ =>
      .err (.msg "Expected '(' character at start of parenthesized expression.")

/-- `parse_id_expr`.  An empty argument list `()` returns the `Call`
without consuming the closing parenthesis; a nonempty one consumes it via
the trailing ignored `advance`. -/
def parseIdExpr : Nat → PState → PRes Expr
  | 0, _ => .err .nofuel
  | fuel + 1, st =>
    match st.curr? with
    | none => .err .panic
    | some (.Ident id) =>
      match advance st with
      | .err _ => .ok (.Variable id) st.advRaw
      | .ok _ st1 =>
        match st1.curr? with
        | none => .err .panic
        | some .LParen =>
          (advance st1).bind fun _ st2 =>
            match st2.curr? with
            | none => .err .panic
            | some .RParen => .ok (.Call id []) st2
            | some _ => parseCallArgs fuel id [] st2
        | some _ => .ok (.Variable id) st1
    | some _ => .err (.msg "Expected identifier.")

/-- Argument loop of `parse_id_expr`. -/
def parseCallArgs : Nat → String → List Expr → PState → PRes Expr
  | 0, _, _, _ => .err .nofuel
  | fuel + 1, id, acc, st =>
    (parseExpr fuel st).bind fun e st1 =>
      match st1.curr? with
      | none => .err (.msg "Unexpected end of file.")
      | some .Comma =>
        (advance st1).bind fun _ st2 => parseCallArgs fuel id (acc ++ [e]) st2
      | some .RParen => .ok (.Call id (acc ++ [e])) st1.advRaw
      | some _ => .err (.msg "Expected ',' character in function call.")

/-- `parse_conditional_expr`.  Note that the lexer never produces the
`Then` token (see `keywordOf`), so on real token streams this always fails
with the missing-then message; the translation is nevertheless faithful. -/
def parseConditionalExpr : Nat → PState → PRes Expr
  | 0, _ => .err .nofuel
  | fuel + 1, st =>
    (advance st).bind fun _ st1 =>
      (parseExpr fuel st1).bind fun cond st2 =>
        match st2.curr? with
        | some .Then =>
          (advance st2).bind fun _ st3 =>
            (parseExpr fuel st3).bind fun thenE st4 =>
              match st4.curr? with
              | some .Else =>
                (advance st4).bind fun _ st5 =>
                  (parseExpr fuel st5).bind fun elseE st6 =>
                    .ok (.Conditional cond thenE elseE) st6
              | _ => .err (.msg "Expected 'else' keyword.")
        | _ => .err (.msg "Expected 'then' keyword.")

/-- `parse_for_expr`. -/
def parseForExpr : Nat → PState → PRes Expr
  | 0, _ => .err .nofuel
  | fuel + 1, st =>
    (advance st).bind fun _ st1 =>
      match st1.curr? with
      | none => .err .panic
      | some (.Ident name) =>
        (advance st1).bind fun _ st2 =>
          match st2.curr? with
          | none => .err .panic
          | some (.Op '=') =>
            (advance st2).bind fun _ st3 =>
              (parseExpr fuel st3).bind fun startE st4 =>
                match st4.curr? with
                | none => .err (.msg "Unexpected end of file.")
                | some .Comma =>
                  (advance st4).bind fun _ st5 =>
                    (parseExpr fuel st5).bind fun endE st6 =>
                      ((match st6.curr? with
                        | none => .err (.msg "Unexpected end of file.")
                        | some .Comma =>
                          (advance st6).bind fun _ st7 =>
                            (parseExpr fuel st7).bind fun stepE st8 =>
                              .ok (some stepE) st8
                        | some _ => .ok none st6) : PRes (Option Expr)).bind
                        fun step st9 =>
                        match st9.curr? with
                        | none => .err (.msg "Unexpected end of file.")
                        | some .In =>
                          (advance st9).bind fun _ st10 =>
                            (parseExpr fuel st10).bind fun body st11 =>
                              .ok (.For name startE endE step body) st11
                        | some _ =>
                          .err (.msg "Expected 'in' keyword in for loop.")
                | some _ => .err (.msg "Expected ',' character in for loop.")
          | some _ => .err (.msg "Expected '=' character in for loop.")
      | some _ => .err (.msg "Expected identifier in for loop.")

/-- `parse_var_expr`. -/
def parseVarExpr : Nat → PState → PRes Expr
  | 0, _ => .err .nofuel
  | fuel + 1, st => (advance st).bind fun _ st1 => parseVarBindings fuel [] st1

/-- Binding loop of `parse_var_expr`. -/
def parseVarBindings : Nat → List (String × Option Expr) → PState → PRes Expr
  | 0, _, _ => .err .nofuel
  | fuel + 1, acc, st =>
    match st.curr? with
    | none => .err .panic
    | some (.Ident name) =>
      (advance st).bind fun _ st1 =>
        ((match st1.curr? with
          | none => .err .panic
          | some (.Op '=') =>
            (advance st1).bind fun _ st2 =>
              (parseExpr fuel st2).bind fun ini st3 => .ok (some ini) st3
          | some _ => .ok none st1) : PRes (Option Expr)).bind fun ini st4 =>
          match st4.curr? with
          | none => .err .panic
          | some .Comma =>
            (advance st4).bind fun _ st5 =>
              parseVarBindings fuel (acc ++ [(name, ini)]) st5
          | some .In =>
            (advance st4).bind fun _ st5 =>
              (parseExpr fuel st5).bind fun body st6 =>
                .ok (.VarIn (acc ++ [(name, ini)]) body) st6
          | some _ =>
            .err (.msg "Expected comma or 'in' keyword in variable declaration.")
    | some _ => .err (.msg "Expected identifier in 'var..in' declaration.")

end

/-- `parse_def` (eats `def` with an unchecked `self.pos += 1`). -/
def parseDef (fuel : Nat) (st : PState) : PRes Function :=
  (parsePrototype fuel st.advRaw).bind fun proto st1 =>
    (parseExpr fuel st1).bind fun body st2 =>
      .ok ⟨proto, some body, false⟩ st2

/-- `parse_extern`. -/
def parseExtern (fuel : Nat) (st : PState) : PRes Function :=
  (parsePrototype fuel st.advRaw).bind fun proto st1 =>
    .ok ⟨proto, none, false⟩ st1

/-- `parse_toplevel_expr`. -/
def parseToplevelExpr (fuel : Nat) (st : PState) : PRes Function :=
  (parseExpr fuel st).bind fun e st1 =>
    .ok ⟨⟨ANONYMOUS_FUNCTION_NAME, [], false, 0⟩, some e, true⟩ st1

/-- `Parser::parse`: dispatch on the current token and then require that
the whole token sequence was consumed. -/
def parse (fuel : Nat) (st : PState) : PRes Function :=
  match st.curr? with
  | none => .err (.msg "Unexpected end of file.")
  | some t =>
    match (match t with
           | .Def => parseDef fuel st
           | .Extern => parseExtern fuel st
           | _ => parseToplevelExpr fuel st) with
    | .ok f st1 =>
      if st1.atEnd then .ok f st1
      else .err (.msg "Unexpected token after parsed expression.")
    | e => e

/-! ## Parser claim theorems -/

/-- C3 (code bug): the `Lexer` iterator yields `Token::Comment` to the
parser.  `Iterator::next` maps only `Ok(Token::EOF)` and `Err(_)` to
`None`; `Ok(Token::Comment)` becomes `Some(Token::Comment)`, so the token
vector collected by `Parser::new` for the source `#c\n1 ` is
`[Comment, Number 1]` — it contains the comment marker — and parsing that
vector fails with the message produced by `parse_primary` for an
unhandled token. -/
theorem c3_comment_token_in_parse_stream :
    collectTokens ("#c\n1 ".toList) = some [.Comment, .Number 1] ∧
    parse 9 ⟨[.Comment, .Number 1], 0, []⟩ = .err (.msg "Unknown expression.") := by
  exact ⟨by decide, rfl⟩

/-- C10: `parse_id_expr` returns an empty-argument `Call` without
consuming the closing parenthesis, so a bare top-level call `name()` (the
full token sequence `[Ident name, LParen, RParen]`) leaves the cursor on
the `RParen` and `Parser::parse` rejects the parse with the trailing-token
message instead of succeeding. -/
theorem c10_empty_call_keeps_rparen :
    ∀ (name : String) (tbl : List (Char × Int)),
      parseIdExpr 8 ⟨[.Ident name, .LParen, .RParen], 0, tbl⟩
        = .ok (.Call name []) ⟨[.Ident name, .LParen, .RParen], 2, tbl⟩ ∧
      parse 9 ⟨[.Ident name, .LParen, .RParen], 0, tbl⟩
        = .err (.msg "Unexpected token after parsed expression.") := by
  intro name tbl
  exact ⟨rfl, rfl⟩

/-- `advance` either fails (leaving no observable state, since every
caller propagates the failure) or moves the cursor one step. -/
theorem advance_cases (st : PState) :
    advance st = .err (.msg "Unexpected end of file") ∨
    advance st = .ok () st.advRaw := by
  unfold advance
  by_cases hlt : st.advRaw.pos < st.advRaw.tokens.length
  · exact Or.inr (by simp [hlt])
  · exact Or.inl (by simp [hlt])

/-- The parameter-list loop never touches the precedence table or the
token vector. -/
theorem parseParams_preserves :
    ∀ fuel acc st args st', parseParams fuel acc st = .ok args st' →
      st'.prec = st.prec ∧ st'.tokens = st.tokens := by
  intro fuel
  induction fuel with
  | zero =>
    intro acc st args st' h
    exact absurd h (by simp [parseParams])
  | succ fuel ih =>
    intro acc st args st' h
    unfold parseParams at h
    split at h
    · simp at h
    · rcases advance_cases st with ha | ha <;> rw [ha] at h <;>
        simp only [PRes.bind] at h
      · simp at h
      · split at h
        · simp at h
        · cases h
          exact ⟨rfl, rfl⟩
        · have h2 := ih _ _ _ _ h
          exact h2
        · simp at h
    · simp at h

/-- `protoParams` (the shared parenthesized-parameter tail of
`parse_prototype`) passes name, operator flag and precedence through
unchanged and never touches the precedence table. -/
theorem protoParams_ok :
    ∀ fuel name isOp pr st pr' st',
      protoParams fuel name isOp pr st = .ok pr' st' →
      pr'.name = name ∧ pr'.is_op = isOp ∧ pr'.prec = pr ∧
      st'.prec = st.prec := by
  intro fuel name isOp pr st pr' st' h
  unfold protoParams at h
  split at h
  · simp at h
  · rcases advance_cases st with ha | ha <;> rw [ha] at h <;>
      simp only [PRes.bind] at h
    · simp at h
    · split at h
      · simp at h
      · cases h
        exact ⟨rfl, rfl, rfl, rfl⟩
      · cases hp : parseParams fuel [] st.advRaw with
        | ok args st2 =>
          rw [hp] at h
          simp only [PRes.bind] at h
          cases h
          have := parseParams_preserves _ _ _ _ _ hp
          exact ⟨rfl, rfl, rfl, this.1⟩
        | err e =>
          rw [hp] at h
          simp [PRes.bind] at h
  · simp at h

/-- `HashMap::insert` semantics of `precInsert`: the inserted key maps to
the new value. -/
theorem precLookup_insert_self (m : List (Char × Int)) (c : Char) (v : Int) :
    precLookup (precInsert m c v) c = some v := by
  simp [precLookup, precInsert, List.lookup]

/-- `HashMap::insert` semantics of `precInsert`: other keys are
unaffected. -/
theorem precLookup_insert_other (m : List (Char × Int)) (c : Char) (v : Int)
    (d : Char) (hd : d ≠ c) :
    precLookup (precInsert m c v) d = precLookup m d := by
  have hdc : (d == c) = false := beq_eq_false_iff_ne.mpr hd
  simp only [precLookup, precInsert, List.lookup, hdc]
  induction m with
  | nil => simp
  | cons p m ih =>
    obtain ⟨k, w⟩ := p
    by_cases hk : k = c
    · subst hk
      have hf : ((k, w).1 != k) = false := by simp
      simp [List.filter_cons, hf, List.lookup, hdc, ih]
    · have hf : ((k, w).1 != c) = true := by simp [hk]
      cases hdk : d == k <;>
        simp [List.filter_cons, hf, List.lookup, hdk, ih]

/-- The composed `as usize`/`as i32` casts are the identity on the small
precedence values actual declarations use. -/
theorem usizeToI32_small (n : Nat) (h : n < 2 ^ 31) :
    usizeToI32 n = Int.ofNat n := by
  have h32 : n < 2 ^ 32 := lt_trans h (by norm_num)
  unfold usizeToI32
  rw [Nat.mod_eq_of_lt h32, if_pos h]
  rfl

/-- C7: a `binary` operator declaration reads one operator character and
an optional precedence literal (default 0 when absent); it names the
prototype `"binary" + op`, marks it as an operator, stores the literal
through the saturating f64→usize cast as the prototype's precedence, and
inserts or overwrites the Precedence Table entry of that operator with
that precedence put through the wrapping usize→i32 cast — the identity on
every literal below 2^31 (the new value is looked up afterwards, other
entries are untouched).  A `unary` declaration names the prototype
`"unary" + op` and leaves the Precedence Table exactly as it was. -/
theorem c7_operator_prototype_decls :
    (∀ fuel st c q pr st',
        st.curr? = some .Binary →
        st.advRaw.curr? = some (.Op c) →
        st.advRaw.advRaw.curr? = some (.Number q) →
        parsePrototype fuel st = .ok pr st' →
        pr.name = "binary".push c ∧ pr.is_op = true ∧
        pr.prec = ratToUsize q ∧
        st'.prec = precInsert st.prec c (usizeToI32 (ratToUsize q)) ∧
        precLookup st'.prec c = some (usizeToI32 (ratToUsize q)) ∧
        (∀ d, d ≠ c → precLookup st'.prec d = precLookup st.prec d) ∧
        (ratToUsize q < 2 ^ 31 →
          usizeToI32 (ratToUsize q) = Int.ofNat (ratToUsize q))) ∧
    (∀ fuel st c t pr st',
        st.curr? = some .Binary →
        st.advRaw.curr? = some (.Op c) →
        st.advRaw.advRaw.curr? = some t →
        (∀ q, t ≠ .Number q) →
        parsePrototype fuel st = .ok pr st' →
        pr.name = "binary".push c ∧ pr.is_op = true ∧ pr.prec = 0 ∧
        st'.prec = precInsert st.prec c 0) ∧
    (∀ fuel st pr st',
        st.curr? = some .Unary →
        parsePrototype fuel st = .ok pr st' →
        st'.prec = st.prec ∧ pr.is_op = true ∧ pr.prec = 0 ∧
        ∃ c, st.advRaw.curr? = some (.Op c) ∧ pr.name = "unary".push c) := by
  refine ⟨?_, ?_, ?_⟩
  · intro fuel st c q pr st' h1 h2 h3 hok
    simp only [parsePrototype, h1] at hok
    rcases advance_cases st with ha | ha <;> rw [ha] at hok <;>
      simp only [PRes.bind] at hok
    · simp at hok
    simp only [h2] at hok
    rcases advance_cases st.advRaw with hb | hb <;> rw [hb] at hok <;>
      simp only [PRes.bind] at hok
    · simp at hok
    simp only [h3] at hok
    rcases advance_cases st.advRaw.advRaw with hc | hc <;> rw [hc] at hok <;>
      simp only [PRes.bind] at hok
    · simp at hok
    have hp := protoParams_ok _ _ _ _ _ _ _ hok
    refine ⟨hp.1, hp.2.1, hp.2.2.1, hp.2.2.2, ?_, ?_, ?_⟩
    · rw [hp.2.2.2]
      exact precLookup_insert_self _ _ _
    · intro d hd
      rw [hp.2.2.2]
      exact precLookup_insert_other _ _ _ _ hd
    · exact usizeToI32_small _
  · intro fuel st c t pr st' h1 h2 h3 ht hok
    simp only [parsePrototype, h1] at hok
    rcases advance_cases st with ha | ha <;> rw [ha] at hok <;>
      simp only [PRes.bind] at hok
    · simp at hok
    simp only [h2] at hok
    rcases advance_cases st.advRaw with hb | hb <;> rw [hb] at hok <;>
      simp only [PRes.bind] at hok
    · simp at hok
    simp only [h3] at hok
    cases t <;> first
      | exact absurd rfl (ht _)
      | {
          have hp := protoParams_ok _ _ _ _ _ _ _ hok
          exact ⟨hp.1, hp.2.1, hp.2.2.1, by
            rw [hp.2.2.2, (by decide : usizeToI32 0 = (0 : Int))]; rfl⟩
        }
  · intro fuel st pr st' h1 hok
    simp only [parsePrototype, h1] at hok
    rcases advance_cases st with ha | ha <;> rw [ha] at hok <;>
      simp only [PRes.bind] at hok
    · simp at hok
    cases hcu : st.advRaw.curr? with
    | none => rw [hcu] at hok; simp at hok
    | some t =>
      rw [hcu] at hok
      cases t <;> try simp at hok
      case Op c =>
        rcases advance_cases st.advRaw with hb | hb <;> rw [hb] at hok <;>
          simp only [PRes.bind] at hok
        · simp at hok
        have hp := protoParams_ok _ _ _ _ _ _ _ hok
        exact ⟨hp.2.2.2, hp.2.1, hp.2.2.1, c, rfl, hp.1⟩

/-- C7 counterexample: a `binary` declaration whose precedence literal is
3000000000 (at least 2^31) stores 3000000000 — the saturating f64→usize
cast of the literal — as the prototype's precedence, but the wrapping
usize→i32 cast of `self.prec.insert(op, prec as i32)` puts -1294967296
in the Precedence Table: the entry does NOT hold the declared
precedence. -/
theorem c7_operator_prec_wrap_counterexample :
    parsePrototype 5
        ⟨[(Token.Binary), .Op '^', .Number 3000000000, .LParen, .RParen],
          0, []⟩
      = .ok ⟨"binary^", [], true, 3000000000⟩
          ⟨[(Token.Binary), .Op '^', .Number 3000000000, .LParen, .RParen],
            5, [('^', -1294967296)]⟩ ∧
    precLookup [('^', (-1294967296 : Int))] '^' = some (-1294967296) ∧
    ¬ precLookup [('^', (-1294967296 : Int))] '^' = some 3000000000 := by
  refine ⟨by decide, by decide, by decide⟩

/-- Witness for C7 at concrete declarations: `binary| 10 (...)` (the casts
are the identity on 10), `binary^ 3000000000 (...)` (the wrapping i32 cast
turns the large literal into -1294967296), `binary& (...)` with the
precedence literal omitted and a pre-existing entry for `&` that gets
overwritten, and `unary! (a) ...`. -/
theorem c7_operator_prototype_decls_witness :
    (Prototype.mk "binary|" [] true 10).name = "binary".push '|' ∧
    (⟨[(Token.Binary), .Op '|', .Number 10, .LParen, .RParen], 5,
        [('|', 10)]⟩ : PState).prec =
      precInsert [] '|' (usizeToI32 (ratToUsize 10)) ∧
    (⟨[(Token.Binary), .Op '^', .Number 3000000000, .LParen, .RParen], 5,
        [('^', -1294967296)]⟩ : PState).prec =
      precInsert [] '^' (usizeToI32 (ratToUsize 3000000000)) ∧
    (⟨[(Token.Binary), .Op '&', .LParen, .RParen], 4,
        [('&', 0)]⟩ : PState).prec = precInsert [('&', 5)] '&' 0 ∧
    (⟨[(Token.Unary), .Op '!', .LParen, .Ident "a", .RParen, .Number 0], 5,
        [('+', 1)]⟩ : PState).prec = [('+', 1)] := by
  have h1 := c7_operator_prototype_decls.1 5
    ⟨[(Token.Binary), .Op '|', .Number 10, .LParen, .RParen], 0, []⟩
    '|' 10 ⟨"binary|", [], true, 10⟩
    ⟨[(Token.Binary), .Op '|', .Number 10, .LParen, .RParen], 5, [('|', 10)]⟩
    (by decide) (by decide) (by decide) (by decide)
  have h4 := c7_operator_prototype_decls.1 5
    ⟨[(Token.Binary), .Op '^', .Number 3000000000, .LParen, .RParen], 0, []⟩
    '^' 3000000000 ⟨"binary^", [], true, 3000000000⟩
    ⟨[(Token.Binary), .Op '^', .Number 3000000000, .LParen, .RParen], 5,
      [('^', -1294967296)]⟩
    (by decide) (by decide) (by decide) (by decide)
  have h2 := c7_operator_prototype_decls.2.1 5
    ⟨[(Token.Binary), .Op '&', .LParen, .RParen], 0, [('&', 5)]⟩
    '&' .LParen ⟨"binary&", [], true, 0⟩
    ⟨[(Token.Binary), .Op '&', .LParen, .RParen], 4, [('&', 0)]⟩
    (by decide) (by decide) (by decide) (by intro q h; cases h) (by decide)
  have h3 := c7_operator_prototype_decls.2.2 5
    ⟨[(Token.Unary), .Op '!', .LParen, .Ident "a", .RParen, .Number 0], 0,
      [('+', 1)]⟩
    ⟨"unary!", ["a"], true, 0⟩
    ⟨[(Token.Unary), .Op '!', .LParen, .Ident "a", .RParen, .Number 0], 5,
      [('+', 1)]⟩
    (by decide) (by decide)
  exact ⟨h1.1, h1.2.2.2.1, h4.2.2.2.1, h2.2.2.2, h3.1⟩

/-! ## Compiler (compiler.rs)

The LLVM backend is modelled through the capability interface the code
actually uses: every builder/module call is logged as an `Event` in a flat
trace, values are SSA handles (`Value`), allocas are `Slot`s carrying the
name they were created with, and the module is the list of declared
functions.  `create_entry_block_alloca` inserts at the head of the entry
block; in the flat trace it appears as an `allocaEntry` event at the point
of the call (the only fact the claims need is which slot it returns and
when it is requested).  LLVM-internal name uniquification of values and
blocks is not modelled: a slot's `get_name()` is the string passed to
`build_alloca`. -/

/-- A stack slot (`PointerValue` returned by `build_alloca`): its SSA id
and the name it was created with (`get_name`). -/
structure Slot where
  id : Nat
  name : String
deriving DecidableEq, Repr

/-- An SSA value handle: a float constant (`const_float`), the result of
an emitted instruction, or the `i`-th parameter of the function being
compiled. -/
inductive Value where
  | constF (q : ℚ)
  | instrRef (id : Nat)
  | argRef (i : Nat)
deriving DecidableEq, Repr

/-- The two float predicates the code uses: `FloatPredicate::ULT`
(unordered or less than) and `FloatPredicate::ONE` (ordered and not
equal). -/
inductive FPred where
  | ULT
  | ONE
deriving DecidableEq, Repr

/-- One backend call, as issued by the compiler. -/
inductive Event where
  | allocaEntry (slot : Nat) (name : String)
  | storeEv (slot : Nat) (v : Value)
  | loadEv (slot : Nat) (res : Nat)
  | faddEv (a b : Value) (res : Nat)
  | fsubEv (a b : Value) (res : Nat)
  | fmulEv (a b : Value) (res : Nat)
  | fdivEv (a b : Value) (res : Nat)
  | fcmpEv (p : FPred) (a b : Value) (res : Nat)
  | uitofpEv (v : Value) (res : Nat)
  | callEv (fname : String) (args : List Value) (res : Nat)
  | phiEv (res : Nat)
  | addIncomingEv (phi : Nat) (inc : List (Value × Nat))
  | appendBlockEv (id : Nat) (name : String)
  | brEv (blk : Nat)
  | condbrEv (c : Value) (t e : Nat)
  | positionEv (blk : Nat)
  | declareEv (fname : String) (nargs : Nat)
  | retEv (v : Value)
  | optimizeEv (fname : String)
  | deleteEv (fname : String)
deriving DecidableEq, Repr

/-- A function present in the backend module (`FunctionValue`): handle id,
name and arity. -/
structure ModFn where
  id : Nat
  name : String
  arity : Nat
deriving DecidableEq, Repr

/-- Compiler + backend state: the module contents, the call trace, the
`variables` map (`HashMap<String, PointerValue>` as an association list
with overwriting insert), the fresh-id counter, `fn_value_opt`, the basic
blocks of the function being built (in creation order, head = entry) and
the block the builder is positioned at. -/
structure CompState where
  module : List ModFn
  trace : List Event
  vars : List (String × Slot)
  nextId : Nat
  fnValue : Option ModFn
  fnBlocks : List Nat
  curBlock : Option Nat
deriving DecidableEq, Repr

/-- `self.variables.get(name)`. -/
def varsGet (m : List (String × Slot)) (k : String) : Option Slot :=
  m.lookup k

/-- `self.variables.insert(k, s)` (overwrites). -/
def varsInsert (m : List (String × Slot)) (k : String) (s : Slot) :
    List (String × Slot) :=
  (k, s) :: m.filter (fun p => p.1 != k)

/-- `self.variables.remove(k)` (the removed value, when present, is read
separately with `varsGet`). -/
def varsRemove (m : List (String × Slot)) (k : String) :
    List (String × Slot) :=
  m.filter (fun p => p.1 != k)

/-- `module.get_function(name)`: first function with that name. -/
def modGet (m : List ModFn) (name : String) : Option ModFn :=
  m.find? (fun f => f.name == name)

/-- Result of compiling an expression or function: `ok` and `err` mirror
`Result<_, &'static str>` (state mutations persist on the error path,
matching `&mut self`), `panicked` models an `unwrap()` failure, `nofuel`
is fuel exhaustion of the embedding (never reached with adequate fuel). -/
inductive CompRes (α : Type) where
  | ok (a : α) (st : CompState)
  | err (msg : String) (st : CompState)
  | panicked (st : CompState)
  | nofuel (st : CompState)
deriving DecidableEq, Repr

def CompRes.bind {α β : Type} (r : CompRes α)
    (f : α → CompState → CompRes β) : CompRes β :=
  match r with
  | .ok a st => f a st
  | .err m st => .err m st
  | .panicked st => .panicked st
  | .nofuel st => .nofuel st

/-- Append one backend call to the trace. -/
def emit (σ : CompState) (ev : Event) : CompState :=
  { σ with trace := σ.trace ++ [ev] }

/-- `context.append_basic_block(parent, name)`: fresh block id, logged,
added to the current function's block list. -/
def appendBlock (σ : CompState) (name : String) : Nat × CompState :=
  (σ.nextId,
   { σ with
       nextId := σ.nextId + 1,
       trace := σ.trace ++ [.appendBlockEv σ.nextId name],
       fnBlocks := σ.fnBlocks ++ [σ.nextId] })

/-- `builder.position_at_end(block)`. -/
def positionAtEnd (σ : CompState) (b : Nat) : CompState :=
  { σ with trace := σ.trace ++ [.positionEv b], curBlock := some b }

/-- `create_entry_block_alloca`: panics (`unwrap`) when there is no
current function or it has no first basic block; otherwise returns a fresh
slot named `name`, inserted at the head of the entry block. -/
def entryAlloca (σ : CompState) (name : String) : CompRes Slot :=
  match σ.fnValue with
  | none => .panicked σ
  | some _ =>
    match σ.fnBlocks.head? with
    | none => .panicked σ
    | some _ =>
      .ok ⟨σ.nextId, name⟩
        { σ with
            nextId := σ.nextId + 1,
            trace := σ.trace ++ [.allocaEntry σ.nextId name] }

/-- `var..in` epilogue: re-insert the saved old bindings, keyed by
`binding.get_name()`, in the order they were saved. -/
def restoreBindings (σ : CompState) (olds : List Slot) : CompState :=
  { σ with vars := olds.foldl (fun m b => varsInsert m b.name b) σ.vars }

/-- The type of the recursive compile call threaded into the
per-constructor lowering helpers below (`compileExpr` at one less fuel). -/
def CompileGo : Type := Expr → CompState → CompRes Value

/-- `Expr::Variable` branch of `compile_expr`. -/
def compileVariableB (name : String) (σ : CompState) : CompRes Value :=
  match varsGet σ.vars name with
  | some slot =>
    .ok (.instrRef σ.nextId)
      (emit { σ with nextId := σ.nextId + 1 } (.loadEv slot.id σ.nextId))
  | none => .err "Could not find a matching variable." σ

/-- Binding loop of the `Expr::VarIn` branch: compile each initializer
(`0.0` when absent), allocate and store the slot, save any removed old
binding in order, and insert the new one. -/
def compileBindings (go : CompileGo) : List (String × Option Expr) →
    List Slot → CompState → CompRes (List Slot)
  | [], olds, σ => .ok olds σ
  | (name, ini?) :: rest, olds, σ =>
    ((match ini? with
      | some ini => go ini σ
      | none => .ok (.constF 0) σ) : CompRes Value).bind fun v σ1 =>
      (entryAlloca σ1 name).bind fun slot σ2 =>
        let σ3 := emit σ2 (.storeEv slot.id v)
        let olds' := match varsGet σ3.vars name with
          | some old => olds ++ [old]
          | none => olds
        let σ4 :=
          { σ3 with vars := varsInsert (varsRemove σ3.vars name) name slot }
        compileBindings go rest olds' σ4

/-- `Expr::VarIn` branch of `compile_expr`. -/
def compileVarInB (go : CompileGo) (bindings : List (String × Option Expr))
    (body : Expr) (σ : CompState) : CompRes Value :=
  (compileBindings go bindings [] σ).bind fun olds σ1 =>
    (go body σ1).bind fun v σ2 =>
      .ok v (restoreBindings σ2 olds)

/-- `Expr::Binary` branch of `compile_expr` (assignment special case,
built-in arithmetic and comparisons, custom-operator call). -/
def compileBinaryB (go : CompileGo) (op : Char) (l r : Expr)
    (σ : CompState) : CompRes Value :=
  if op = '=' then
    match l with
    | .Variable vn =>
      (go r σ).bind fun v σ1 =>
        match varsGet σ1.vars vn with
        | some slot => .ok v (emit σ1 (.storeEv slot.id v))
        | none => .err "Undefined variable." σ1
    | _ => .err "Expected variable as left-hand operator of assignement." σ
  else
    (go l σ).bind fun lv σ1 =>
    (go r σ1).bind fun rv σ2 =>
    if op = '+' then
      .ok (.instrRef σ2.nextId)
        (emit { σ2 with nextId := σ2.nextId + 1 } (.faddEv lv rv σ2.nextId))
    else if op = '-' then
      .ok (.instrRef σ2.nextId)
        (emit { σ2 with nextId := σ2.nextId + 1 } (.fsubEv lv rv σ2.nextId))
    else if op = '*' then
      .ok (.instrRef σ2.nextId)
        (emit { σ2 with nextId := σ2.nextId + 1 } (.fmulEv lv rv σ2.nextId))
    else if op = '/' then
      .ok (.instrRef σ2.nextId)
        (emit { σ2 with nextId := σ2.nextId + 1 } (.fdivEv lv rv σ2.nextId))
    else if op = '<' then
      let σ3 := emit { σ2 with nextId := σ2.nextId + 1 }
        (.fcmpEv .ULT lv rv σ2.nextId)
      .ok (.instrRef σ3.nextId)
        (emit { σ3 with nextId := σ3.nextId + 1 }
          (.uitofpEv (.instrRef σ2.nextId) σ3.nextId))
    else if op = '>' then
      let σ3 := emit { σ2 with nextId := σ2.nextId + 1 }
        (.fcmpEv .ULT rv lv σ2.nextId)
      .ok (.instrRef σ3.nextId)
        (emit { σ3 with nextId := σ3.nextId + 1 }
          (.uitofpEv (.instrRef σ2.nextId) σ3.nextId))
    else
      match modGet σ2.module ("binary".push op) with
      | some f =>
        .ok (.instrRef σ2.nextId)
          (emit { σ2 with nextId := σ2.nextId + 1 }
            (.callEv f.name [lv, rv] σ2.nextId))
      | none => .err "Undefined binary operator." σ2

/-- Argument loop of the `Expr::Call` branch. -/
def compileArgs (go : CompileGo) : List Expr → List Value → CompState →
    CompRes (List Value)
  | [], acc, σ => .ok acc σ
  | a :: rest, acc, σ =>
    (go a σ).bind fun v σ1 => compileArgs go rest (acc ++ [v]) σ1

/-- `Expr::Call` branch of `compile_expr` (the callee is resolved before
the arguments are compiled). -/
def compileCallB (go : CompileGo) (fname : String) (args : List Expr)
    (σ : CompState) : CompRes Value :=
  match modGet σ.module fname with
  | some f =>
    (compileArgs go args [] σ).bind fun vs σ1 =>
      .ok (.instrRef σ1.nextId)
        (emit { σ1 with nextId := σ1.nextId + 1 } (.callEv f.name vs σ1.nextId))
  | none => .err "Unknown function." σ

/-- `Expr::Conditional` branch of `compile_expr`. -/
def compileCondB (go : CompileGo) (c th el : Expr) (σ : CompState) :
    CompRes Value :=
  match σ.fnValue with
  | none => .panicked σ
  | some _ =>
    (go c σ).bind fun cv σ1 =>
    let σ2 := emit { σ1 with nextId := σ1.nextId + 1 }
      (.fcmpEv .ONE cv (.constF 0) σ1.nextId)
    let (tb, σ3) := appendBlock σ2 "then"
    let (eb, σ4) := appendBlock σ3 "else"
    let (cb, σ5) := appendBlock σ4 "ifcont"
    let σ6 := positionAtEnd (emit σ5 (.condbrEv (.instrRef σ1.nextId) tb eb)) tb
    (go th σ6).bind fun tv σ7 =>
    let σ8 := emit σ7 (.brEv cb)
    match σ8.curBlock with
    | none => .panicked σ8
    | some thenBB =>
      let σ9 := positionAtEnd σ8 eb
      (go el σ9).bind fun ev σ10 =>
      let σ11 := emit σ10 (.brEv cb)
      match σ11.curBlock with
      | none => .panicked σ11
      | some elseBB =>
        let σ12 := positionAtEnd σ11 cb
        let σ13 := emit { σ12 with nextId := σ12.nextId + 1 }
          (.phiEv σ12.nextId)
        let σ14 := emit σ13
          (.addIncomingEv σ12.nextId [(tv, thenBB), (ev, elseBB)])
        .ok (.instrRef σ12.nextId) σ14

/-- Prologue of the `Expr::For` branch, after the start value `sv` has
been computed into state `σ2` and the slot allocated: store the start
value, open the loop block, branch into it and position there, save the
old binding of the induction variable (`old_val = variables.remove(..)`)
and bind it to the fresh slot.  Returns the state ready for the body, the
saved old binding and the loop-block id. -/
def forLoopPrologue (σ2 : CompState) (slot : Slot) (sv : Value)
    (n : String) : CompState × Option Slot × Nat :=
  let σ3 := emit σ2 (.storeEv slot.id sv)
  let (lb, σ4) := appendBlock σ3 "loop"
  let σ5 := positionAtEnd (emit σ4 (.brEv lb)) lb
  let oldVal := varsGet σ5.vars n
  ({ σ5 with vars := varsInsert (varsRemove σ5.vars n) n slot }, oldVal, lb)

/-- Epilogue of the `Expr::For` branch, run after body, step value and end
condition have been compiled (final state `σ9`, end value `endv`): load
the induction slot, add the step, store the result back, compare the end
value `ONE` against zero, open the after-loop block, branch conditionally
back to the loop block and position after the loop, then restore or remove
the induction variable's binding. -/
def forLoopEpilogue (σ9 : CompState) (slot : Slot) (stepv endv : Value)
    (lb : Nat) (n : String) (oldVal : Option Slot) : CompState :=
  let σ10 := emit { σ9 with nextId := σ9.nextId + 1 }
    (.loadEv slot.id σ9.nextId)
  let σ11 := emit { σ10 with nextId := σ10.nextId + 1 }
    (.faddEv (.instrRef σ9.nextId) stepv σ10.nextId)
  let σ12 := emit σ11 (.storeEv slot.id (.instrRef σ10.nextId))
  let σ13 := emit { σ12 with nextId := σ12.nextId + 1 }
    (.fcmpEv .ONE endv (.constF 0) σ12.nextId)
  let (ab, σ14) := appendBlock σ13 "afterloop"
  let σ15 := positionAtEnd
    (emit σ14 (.condbrEv (.instrRef σ12.nextId) lb ab)) ab
  let σ16 := { σ15 with vars := varsRemove σ15.vars n }
  match oldVal with
  | some old => { σ16 with vars := varsInsert σ16.vars n old }
  | none => σ16

/-- `Expr::For` branch of `compile_expr`.  Note the order inside the loop
block: body, step value, END CONDITION, then load/add/store of the
induction slot, then the comparison and the conditional branch. -/
def compileForB (go : CompileGo) (n : String) (s en : Expr)
    (stp : Option Expr) (b : Expr) (σ : CompState) : CompRes Value :=
  match σ.fnValue with
  | none => .panicked σ
  | some _ =>
    (entryAlloca σ n).bind fun slot σ1 =>
    (go s σ1).bind fun sv σ2 =>
    let (σ6, oldVal, lb) := forLoopPrologue σ2 slot sv n
    (go b σ6).bind fun _ σ7 =>
    (match stp with
     | some se => go se σ7
     | none => .ok (.constF 1) σ7).bind fun stepv σ8 =>
    (go en σ8).bind fun endv σ9 =>
    .ok (.constF 0) (forLoopEpilogue σ9 slot stepv endv lb n oldVal)

/-- `Compiler::compile_expr`, dispatching to the per-constructor helpers
above with the recursive call at one less fuel. -/
def compileExpr : Nat → Expr → CompState → CompRes Value
  | 0, _, σ => .nofuel σ
  | fuel + 1, e, σ =>
    match e with
    | .Number q => .ok (.constF q) σ
    | .Variable name => compileVariableB name σ
    | .VarIn bindings body => compileVarInB (compileExpr fuel) bindings body σ
    | .Binary op l r => compileBinaryB (compileExpr fuel) op l r σ
    | .Call fname args => compileCallB (compileExpr fuel) fname args σ
    | .Conditional c th el => compileCondB (compileExpr fuel) c th el σ
    | .For n s en stp b => compileForB (compileExpr fuel) n s en stp b σ

theorem compileExpr_zero (e : Expr) (σ : CompState) :
    compileExpr 0 e σ = .nofuel σ := rfl

theorem compileExpr_For (fuel : Nat) (n : String) (s en : Expr)
    (stp : Option Expr) (b : Expr) (σ : CompState) :
    compileExpr (fuel + 1) (.For n s en stp b) σ
      = compileForB (compileExpr fuel) n s en stp b σ := rfl

theorem compileExpr_Binary (fuel : Nat) (op : Char) (l r : Expr)
    (σ : CompState) :
    compileExpr (fuel + 1) (.Binary op l r) σ
      = compileBinaryB (compileExpr fuel) op l r σ := rfl

theorem compileExpr_VarIn (fuel : Nat)
    (bindings : List (String × Option Expr)) (body : Expr) (σ : CompState) :
    compileExpr (fuel + 1) (.VarIn bindings body) σ
      = compileVarInB (compileExpr fuel) bindings body σ := rfl

theorem compileExpr_Number (fuel : Nat) (q : ℚ) (σ : CompState) :
    compileExpr (fuel + 1) (.Number q) σ = .ok (.constF q) σ := rfl

theorem compileExpr_Variable (fuel : Nat) (name : String) (σ : CompState) :
    compileExpr (fuel + 1) (.Variable name) σ = compileVariableB name σ := rfl

theorem compileExpr_Call (fuel : Nat) (fname : String) (args : List Expr)
    (σ : CompState) :
    compileExpr (fuel + 1) (.Call fname args) σ
      = compileCallB (compileExpr fuel) fname args σ := rfl

theorem compileExpr_Conditional (fuel : Nat) (c th el : Expr)
    (σ : CompState) :
    compileExpr (fuel + 1) (.Conditional c th el) σ
      = compileCondB (compileExpr fuel) c th el σ := rfl

/-- `Compiler::compile_prototype`: add the function to the module (always
succeeds) and log the declaration.  The per-parameter `set_name` calls
carry no information the claims need and are not logged. -/
def compilePrototype (proto : Prototype) (σ : CompState) : CompRes ModFn :=
  .ok ⟨σ.nextId, proto.name, proto.args.length⟩
    { σ with
        nextId := σ.nextId + 1,
        module := σ.module ++ [⟨σ.nextId, proto.name, proto.args.length⟩],
        trace := σ.trace ++ [.declareEv proto.name proto.args.length] }

/-- Parameter prologue of `compile_fn`: one entry-block alloca, store and
`variables` insert per parameter. -/
def bindParams : List String → Nat → CompState → CompRes Unit
  | [], _, σ => .ok () σ
  | a :: rest, i, σ =>
    (entryAlloca σ a).bind fun slot σ1 =>
      let σ2 := emit σ1 (.storeEv slot.id (.argRef i))
      bindParams rest (i + 1) { σ2 with vars := varsInsert σ2.vars a slot }

/-- Body prologue of `compile_fn` (run when a body is present): open the
entry block of the freshly created function, position the builder there,
record `fn_value_opt` and bind the parameters. -/
def fnEntrySetup (fv : ModFn) (args : List String) (σ : CompState) :
    CompRes Unit :=
  let (eb, σ1) := appendBlock { σ with fnBlocks := [] } "entry"
  let σ2 := { positionAtEnd σ1 eb with fnValue := some fv }
  bindParams args 0 σ2

/-- `Compiler::compile_fn`.  `verifyOk` is the reply of the backend's
`function.verify(true)` call, which is external to this code. -/
def compileFn (fuel : Nat) (verifyOk : Bool) (f : Function) (σ : CompState) :
    CompRes ModFn :=
  (compilePrototype f.prototype σ).bind fun fv σ1 =>
    match f.body with
    | none => .ok fv σ1
    | some body =>
      (fnEntrySetup fv f.prototype.args σ1).bind fun _ σ2 =>
        (compileExpr fuel body σ2).bind fun bv σ3 =>
          let σ4 := emit σ3 (.retEv bv)
          if verifyOk then .ok fv (emit σ4 (.optimizeEv fv.name))
          else
            .err "Invalid generated function."
              { emit σ4 (.deleteEv fv.name) with
                  module := σ4.module.filter (fun g => g.id != fv.id) }

/-- `Compiler::compile`: fresh `variables` map and `fn_value_opt` for each
top-level function; the module (and the builder, hence its position)
persists across calls. -/
def compile (fuel : Nat) (verifyOk : Bool) (f : Function) (σ : CompState) :
    CompRes ModFn :=
  compileFn fuel verifyOk f { σ with vars := [], fnValue := none }

/-! ## Compiler claim theorems -/

/-- Inversion of a successful `CompRes.bind`. -/
theorem CompRes.bind_eq_ok {α β : Type} {r : CompRes α}
    {f : α → CompState → CompRes β} {b : β} {σ' : CompState}
    (h : r.bind f = .ok b σ') :
    ∃ a σ1, r = .ok a σ1 ∧ f a σ1 = .ok b σ' := by
  cases r with
  | ok a σ1 => exact ⟨a, σ1, rfl, h⟩
  | err m σ1 => simp [CompRes.bind] at h
  | panicked σ1 => simp [CompRes.bind] at h
  | nofuel σ1 => simp [CompRes.bind] at h

/-- C5: whenever lowering a `for` expression succeeds, the value produced
for the whole loop expression is the constant `0.0`, regardless of the
induction variable, start, end, step, body, or the state it is compiled
in. -/
theorem c5_for_value_is_zero :
    ∀ fuel n s en stp b σ v σ',
      compileExpr fuel (.For n s en stp b) σ = .ok v σ' →
      v = .constF 0 := by
  intro fuel n s en stp b σ v σ' h
  cases fuel with
  | zero =>
    rw [compileExpr_zero] at h
    simp at h
  | succ fuel =>
    rw [compileExpr_For] at h
    unfold compileForB at h
    cases hf : σ.fnValue with
    | none => rw [hf] at h; simp at h
    | some fv =>
      rw [hf] at h
      obtain ⟨slot, σ1, _, h⟩ := CompRes.bind_eq_ok h
      obtain ⟨sv, σ2, _, h⟩ := CompRes.bind_eq_ok h
      simp only [] at h
      obtain ⟨bv, σ7, _, h⟩ := CompRes.bind_eq_ok h
      obtain ⟨stepv, σ8, _, h⟩ := CompRes.bind_eq_ok h
      obtain ⟨endv, σ9, _, h⟩ := CompRes.bind_eq_ok h
      cases h
      rfl

/-- Witness input for C5. -/
def c5σ : CompState := ⟨[], [], [], 0, some ⟨99, "f", 0⟩, [50], some 50⟩

def c5e : Expr := .For "i" (.Number 0) (.Variable "i") none (.Number 1)

def c5res : CompRes Value := compileExpr 5 c5e c5σ

def c5v : Value :=
  match c5res with
  | .ok v _ => v
  | _ => .constF 99

def c5st : CompState :=
  match c5res with
  | .ok _ s => s
  | _ => c5σ

/-- Witness for C5 at a concrete loop. -/
theorem c5_for_value_is_zero_witness : c5v = .constF 0 :=
  c5_for_value_is_zero 5 "i" (.Number 0) (.Variable "i") none (.Number 1)
    c5σ c5v c5st rfl

/-- C6: `a < b` lowers to `fcmp ULT` on operands `(a, b)` followed by an
unsigned int-to-float conversion whose result is the value of the
expression, and `a > b` lowers to the same `ULT` comparison with the
operands swapped to `(b, a)`.  The predicate recorded is `ULT`
(unordered-or-less-than), not an ordered one, so comparisons with NaN
operands are not guaranteed to produce `0.0`. -/
theorem c6_comparison_lowering :
    (∀ fuel l r σ v σ',
        compileExpr (fuel + 1) (.Binary '<' l r) σ = .ok v σ' →
        ∃ vl σ1 vr σ2,
          compileExpr fuel l σ = .ok vl σ1 ∧
          compileExpr fuel r σ1 = .ok vr σ2 ∧
          σ'.trace = σ2.trace ++
            [.fcmpEv .ULT vl vr σ2.nextId,
             .uitofpEv (.instrRef σ2.nextId) (σ2.nextId + 1)] ∧
          v = .instrRef (σ2.nextId + 1)) ∧
    (∀ fuel l r σ v σ',
        compileExpr (fuel + 1) (.Binary '>' l r) σ = .ok v σ' →
        ∃ vl σ1 vr σ2,
          compileExpr fuel l σ = .ok vl σ1 ∧
          compileExpr fuel r σ1 = .ok vr σ2 ∧
          σ'.trace = σ2.trace ++
            [.fcmpEv .ULT vr vl σ2.nextId,
             .uitofpEv (.instrRef σ2.nextId) (σ2.nextId + 1)] ∧
          v = .instrRef (σ2.nextId + 1)) := by
  constructor
  · intro fuel l r σ v σ' h
    rw [compileExpr_Binary] at h
    unfold compileBinaryB at h
    rw [if_neg (by decide)] at h
    obtain ⟨vl, σ1, h1, h⟩ := CompRes.bind_eq_ok h
    obtain ⟨vr, σ2, h2, h⟩ := CompRes.bind_eq_ok h
    rw [if_neg (by decide), if_neg (by decide), if_neg (by decide),
        if_neg (by decide), if_pos rfl] at h
    cases h
    exact ⟨vl, σ1, vr, σ2, h1, h2, by simp [emit], rfl⟩
  · intro fuel l r σ v σ' h
    rw [compileExpr_Binary] at h
    unfold compileBinaryB at h
    rw [if_neg (by decide)] at h
    obtain ⟨vl, σ1, h1, h⟩ := CompRes.bind_eq_ok h
    obtain ⟨vr, σ2, h2, h⟩ := CompRes.bind_eq_ok h
    rw [if_neg (by decide), if_neg (by decide), if_neg (by decide),
        if_neg (by decide), if_neg (by decide), if_pos rfl] at h
    cases h
    exact ⟨vl, σ1, vr, σ2, h1, h2, by simp [emit], rfl⟩

/-- Witness inputs for C6. -/
def c6σ : CompState :=
  ⟨[], [], [("a", ⟨77, "a"⟩)], 0, some ⟨99, "f", 0⟩, [50], some 50⟩

def c6lt : CompRes Value := compileExpr 5 (.Binary '<' (.Variable "a") (.Number 3)) c6σ

def c6gt : CompRes Value := compileExpr 5 (.Binary '>' (.Variable "a") (.Number 3)) c6σ

def c6ltv : Value := match c6lt with | .ok v _ => v | _ => .constF 99

def c6ltσ : CompState := match c6lt with | .ok _ s => s | _ => c6σ

def c6gtv : Value := match c6gt with | .ok v _ => v | _ => .constF 99

def c6gtσ : CompState := match c6gt with | .ok _ s => s | _ => c6σ

/-- Witness for C6 at concrete comparisons. -/
theorem c6_comparison_lowering_witness :
    (∃ vl σ1 vr σ2,
      compileExpr 4 (.Variable "a") c6σ = .ok vl σ1 ∧
      compileExpr 4 (.Number 3) σ1 = .ok vr σ2 ∧
      c6ltσ.trace = σ2.trace ++
        [.fcmpEv .ULT vl vr σ2.nextId,
         .uitofpEv (.instrRef σ2.nextId) (σ2.nextId + 1)] ∧
      c6ltv = .instrRef (σ2.nextId + 1)) ∧
    (∃ vl σ1 vr σ2,
      compileExpr 4 (.Variable "a") c6σ = .ok vl σ1 ∧
      compileExpr 4 (.Number 3) σ1 = .ok vr σ2 ∧
      c6gtσ.trace = σ2.trace ++
        [.fcmpEv .ULT vr vl σ2.nextId,
         .uitofpEv (.instrRef σ2.nextId) (σ2.nextId + 1)] ∧
      c6gtv = .instrRef (σ2.nextId + 1)) :=
  ⟨c6_comparison_lowering.1 4 (.Variable "a") (.Number 3) c6σ c6ltv c6ltσ rfl,
   c6_comparison_lowering.2 4 (.Variable "a") (.Number 3) c6σ c6gtv c6gtσ rfl⟩

/-- C8: when the backend's verification of a compiled body replies false,
`compile_fn` deletes the partially built function from the module (the
final module contains no function with its handle; the `delete` backend
call is the last thing logged before the return) and returns the
`Invalid generated function.` error instead of a routine handle. -/
theorem c8_verify_failure_deletes_fn :
    ∀ fuel f σ b σ2 bv σ3,
      f.body = some b →
      fnEntrySetup ⟨σ.nextId, f.prototype.name, f.prototype.args.length⟩
        f.prototype.args
        { σ with
            nextId := σ.nextId + 1,
            module := σ.module ++
              [⟨σ.nextId, f.prototype.name, f.prototype.args.length⟩],
            trace := σ.trace ++
              [.declareEv f.prototype.name f.prototype.args.length] }
        = .ok () σ2 →
      compileExpr fuel b σ2 = .ok bv σ3 →
      ∃ σ4,
        compileFn fuel false f σ = .err "Invalid generated function." σ4 ∧
        σ4.module = σ3.module.filter (fun g => g.id != σ.nextId) ∧
        σ4.module.all (fun g => g.id != σ.nextId) = true ∧
        σ4.trace.getLast? = some (.deleteEv f.prototype.name) := by
  intro fuel f σ b σ2 bv σ3 hb hsetup hbody
  refine ⟨{ emit (emit σ3 (.retEv bv)) (.deleteEv f.prototype.name) with
              module := σ3.module.filter (fun g => g.id != σ.nextId) },
          ?_, rfl, ?_, ?_⟩
  · unfold compileFn compilePrototype
    simp only [CompRes.bind, hb]
    rw [hsetup]
    simp only [CompRes.bind]
    rw [hbody]
    simp only [CompRes.bind]
    rfl
  · simp only [List.all_eq_true]
    intro g hg
    exact (List.mem_filter.mp hg).2
  · simp [emit, List.getLast?_concat]

/-- Witness inputs for C8: a one-parameter definition compiled into a
module that already holds one function, with the verifier replying
false. -/
def c8F : Function := ⟨⟨"g", ["a"], false, 0⟩, some (.Variable "a"), false⟩

def c8σ : CompState := ⟨[⟨7, "h", 1⟩], [], [], 8, none, [], none⟩

def c8σ1 : CompState :=
  { c8σ with
      nextId := c8σ.nextId + 1,
      module := c8σ.module ++ [⟨c8σ.nextId, "g", 1⟩],
      trace := c8σ.trace ++ [.declareEv "g" 1] }

def c8σ2 : CompState :=
  match fnEntrySetup ⟨c8σ.nextId, "g", 1⟩ ["a"] c8σ1 with
  | .ok _ s => s
  | _ => c8σ1

def c8body : CompRes Value := compileExpr 9 (.Variable "a") c8σ2

def c8bv : Value := match c8body with | .ok v _ => v | _ => .constF 99

def c8σ3 : CompState := match c8body with | .ok _ s => s | _ => c8σ2

/-- Witness for C8 at a concrete failing verification. -/
theorem c8_verify_failure_deletes_fn_witness :
    ∃ σ4,
      compileFn 9 false c8F c8σ = .err "Invalid generated function." σ4 ∧
      σ4.module = c8σ3.module.filter (fun g => g.id != c8σ.nextId) ∧
      σ4.module.all (fun g => g.id != c8σ.nextId) = true ∧
      σ4.trace.getLast? = some (.deleteEv "g") :=
  c8_verify_failure_deletes_fn 9 c8F c8σ (.Variable "a") c8σ2 c8bv c8σ3
    rfl rfl rfl

/-- `HashMap::insert` semantics of `varsInsert`: the inserted key maps to
the new slot. -/
theorem varsGet_insert_self (m : List (String × Slot)) (k : String)
    (s : Slot) : varsGet (varsInsert m k s) k = some s := by
  simp [varsGet, varsInsert, List.lookup]

/-- `HashMap::remove` semantics of `varsRemove`: the removed key is
absent. -/
theorem varsGet_remove_self (m : List (String × Slot)) (k : String) :
    varsGet (varsRemove m k) k = none := by
  induction m with
  | nil => rfl
  | cons p m ih =>
    obtain ⟨k1, s1⟩ := p
    by_cases hk : k1 = k
    · subst hk
      have hf : ((k1, s1).1 != k1) = false := by simp
      simpa [varsRemove, varsGet, List.filter_cons, hf] using ih
    · have hf : ((k1, s1).1 != k) = true := by simp [hk]
      have hkk : (k == k1) = false :=
        beq_eq_false_iff_ne.mpr (fun h => hk h.symm)
      simpa [varsRemove, varsGet, List.filter_cons, hf, List.lookup, hkk]
        using ih

/-- The `for` epilogue leaves the induction variable bound exactly to the
saved `old_val`: restored when one was saved, absent otherwise. -/
theorem forLoopEpilogue_varsGet (σ9 : CompState) (slot : Slot)
    (stepv endv : Value) (lb : Nat) (n : String) (oldVal : Option Slot) :
    varsGet (forLoopEpilogue σ9 slot stepv endv lb n oldVal).vars n
      = oldVal := by
  cases oldVal with
  | some old =>
    simp [forLoopEpilogue, emit, appendBlock, positionAtEnd,
      varsGet_insert_self]
  | none =>
    simp [forLoopEpilogue, emit, appendBlock, positionAtEnd,
      varsGet_remove_self]

/-- The backend calls issued by the `for` epilogue, in order: load the
slot, add the step, store it back, compare the end value against zero,
open the after-loop block, branch conditionally, position after. -/
theorem forLoopEpilogue_trace (σ9 : CompState) (slot : Slot)
    (stepv endv : Value) (lb : Nat) (n : String) (oldVal : Option Slot) :
    (forLoopEpilogue σ9 slot stepv endv lb n oldVal).trace
      = σ9.trace ++
        [.loadEv slot.id σ9.nextId,
         .faddEv (.instrRef σ9.nextId) stepv (σ9.nextId + 1),
         .storeEv slot.id (.instrRef (σ9.nextId + 1)),
         .fcmpEv .ONE endv (.constF 0) (σ9.nextId + 2),
         .appendBlockEv (σ9.nextId + 3) "afterloop",
         .condbrEv (.instrRef (σ9.nextId + 2)) lb (σ9.nextId + 3),
         .positionEv (σ9.nextId + 3)] := by
  cases oldVal <;>
    simp [forLoopEpilogue, emit, appendBlock, positionAtEnd]

/-- C4 (amended order): when lowering a `for` loop, after entering the
loop block the body is compiled (value discarded), then the step value
(the constant `1.0` when the clause is omitted) is computed, then the END
CONDITION expression is evaluated, and only then is the induction slot
loaded, incremented by the step and stored back, after which the
already-computed end value is compared `ONE` against zero to decide the
conditional branch back to the loop block.  So the evaluation of the end
condition precedes the store of the incremented induction value; only the
comparison and the branch follow the store. -/
theorem c4_for_lowering_order :
    ∀ fuel n s en stp b σ v σ',
      compileExpr (fuel + 1) (.For n s en stp b) σ = .ok v σ' →
      ∃ slot σ1 sv σ2 bv σ7 stepv σ8 endv σ9,
        entryAlloca σ n = .ok slot σ1 ∧
        compileExpr fuel s σ1 = .ok sv σ2 ∧
        compileExpr fuel b (forLoopPrologue σ2 slot sv n).1 = .ok bv σ7 ∧
        (match stp with
         | some se => compileExpr fuel se σ7
         | none => .ok (.constF 1) σ7) = .ok stepv σ8 ∧
        compileExpr fuel en σ8 = .ok endv σ9 ∧
        v = .constF 0 ∧
        σ' = forLoopEpilogue σ9 slot stepv endv
          (forLoopPrologue σ2 slot sv n).2.2 n
          (forLoopPrologue σ2 slot sv n).2.1 ∧
        σ'.trace = σ9.trace ++
          [.loadEv slot.id σ9.nextId,
           .faddEv (.instrRef σ9.nextId) stepv (σ9.nextId + 1),
           .storeEv slot.id (.instrRef (σ9.nextId + 1)),
           .fcmpEv .ONE endv (.constF 0) (σ9.nextId + 2),
           .appendBlockEv (σ9.nextId + 3) "afterloop",
           .condbrEv (.instrRef (σ9.nextId + 2))
             (forLoopPrologue σ2 slot sv n).2.2 (σ9.nextId + 3),
           .positionEv (σ9.nextId + 3)] := by
  intro fuel n s en stp b σ v σ' h
  rw [compileExpr_For] at h
  unfold compileForB at h
  cases hf : σ.fnValue with
  | none => rw [hf] at h; simp at h
  | some fv =>
    rw [hf] at h
    obtain ⟨slot, σ1, h1, h⟩ := CompRes.bind_eq_ok h
    obtain ⟨sv, σ2, h2, h⟩ := CompRes.bind_eq_ok h
    simp only [] at h
    obtain ⟨bv, σ7, h3, h⟩ := CompRes.bind_eq_ok h
    obtain ⟨stepv, σ8, h4, h⟩ := CompRes.bind_eq_ok h
    obtain ⟨endv, σ9, h5, h⟩ := CompRes.bind_eq_ok h
    cases h
    exact ⟨slot, σ1, sv, σ2, bv, σ7, stepv, σ8, endv, σ9,
      h1, h2, h3, h4, h5, rfl, rfl, forLoopEpilogue_trace _ _ _ _ _ _ _⟩

/-- Witness input for the amended C4 theorem and concrete data for the
counterexample below. -/
def c4σ : CompState := ⟨[], [], [], 0, some ⟨99, "f", 0⟩, [50], some 50⟩

def c4e : Expr := .For "i" (.Number 0) (.Variable "i") none (.Number 1)

def c4trace : List Event :=
  [.allocaEntry 0 "i", .storeEv 0 (.constF 0), .appendBlockEv 1 "loop",
   .brEv 1, .positionEv 1, .loadEv 0 2, .loadEv 0 3,
   .faddEv (.instrRef 3) (.constF 1) 4, .storeEv 0 (.instrRef 4),
   .fcmpEv .ONE (.instrRef 2) (.constF 0) 5, .appendBlockEv 6 "afterloop",
   .condbrEv (.instrRef 5) 1 6, .positionEv 6]

/-- C4 counterexample: for the concrete loop `for i = 0, i, ... in 1`
(end condition `i`, default step), the loop-block trace contains the load
that evaluates the end condition (`loadEv 0 2`, whose result `instrRef 2`
is the operand of the final comparison) at index 5, BEFORE the store of
the incremented induction value (`storeEv 0 (instrRef 4)`) at index 8 —
refuting the claim that the store precedes the evaluation of the end
condition. -/
theorem c4_store_precedes_end_counterexample :
    compileExpr 3 c4e c4σ
      = .ok (.constF 0)
          ⟨[], c4trace, [], 7, some ⟨99, "f", 0⟩, [50, 1, 6], some 6⟩ ∧
    c4trace.get? 5 = some (.loadEv 0 2) ∧
    c4trace.get? 8 = some (.storeEv 0 (.instrRef 4)) ∧
    c4trace.get? 9 = some (.fcmpEv .ONE (.instrRef 2) (.constF 0) 5) ∧
    (5 : Nat) < 8 := by
  refine ⟨by decide, by decide, by decide, by decide, by decide⟩

/-- Witness data for the amended C4 theorem. -/
def c4res : CompRes Value := compileExpr 3 c4e c4σ

def c4v : Value := match c4res with | .ok v _ => v | _ => .constF 99

def c4st : CompState := match c4res with | .ok _ s => s | _ => c4σ

/-- Expressions that introduce no scope of their own: everything except
`for` and `var..in` (recursively).  Used to isolate the `var..in`
save/restore behaviour from rebinding performed by the body itself. -/
inductive ScopeFree : Expr → Prop where
  | number (q : ℚ) : ScopeFree (.Number q)
  | variableRef (name : String) : ScopeFree (.Variable name)
  | binary (op : Char) {l r : Expr} :
      ScopeFree l → ScopeFree r → ScopeFree (.Binary op l r)
  | call (fname : String) {args : List Expr} :
      (∀ a ∈ args, ScopeFree a) → ScopeFree (.Call fname args)
  | conditional {c t e : Expr} :
      ScopeFree c → ScopeFree t → ScopeFree e →
      ScopeFree (.Conditional c t e)

/-- Inversion of a successful `create_entry_block_alloca`: the variables
map and module are untouched and the returned slot is fresh and carries
the requested name. -/
theorem entryAlloca_ok {σ : CompState} {n : String} {slot : Slot}
    {σ' : CompState} (h : entryAlloca σ n = .ok slot σ') :
    σ'.vars = σ.vars ∧ slot.name = n ∧ slot.id = σ.nextId := by
  unfold entryAlloca at h
  cases hf : σ.fnValue <;> rw [hf] at h
  · simp at h
  · cases hb : σ.fnBlocks.head? <;> rw [hb] at h
    · simp at h
    · cases h
      exact ⟨rfl, rfl, rfl⟩

/-- Compiling a scope-free expression never changes the variables map
(loads, stores, arithmetic, calls and conditionals read it or read
through it, but only `for` and `var..in` insert or remove entries). -/
theorem scopeFree_vars_eq :
    ∀ fuel e σ v σ', ScopeFree e → compileExpr fuel e σ = .ok v σ' →
      σ'.vars = σ.vars := by
  intro fuel
  induction fuel with
  | zero =>
    intro e σ v σ' _ h
    rw [compileExpr_zero] at h
    simp at h
  | succ fuel ih =>
    have ihArgs : ∀ (args : List Expr), (∀ a ∈ args, ScopeFree a) →
        ∀ acc σ vs σ',
        compileArgs (compileExpr fuel) args acc σ = .ok vs σ' →
        σ'.vars = σ.vars := by
      intro args
      induction args with
      | nil =>
        intro _ acc σ vs σ' h
        unfold compileArgs at h
        cases h
        rfl
      | cons a rest ihr =>
        intro hall acc σ vs σ' h
        unfold compileArgs at h
        obtain ⟨v1, σ1, hA, h⟩ := CompRes.bind_eq_ok h
        have e1 := ih a σ v1 σ1 (hall a (by simp)) hA
        have e2 := ihr (fun x hx => hall x (by simp [hx])) _ _ _ _ h
        rw [e2, e1]
    intro e σ v σ' hsf h
    cases e with
    | Number q =>
      rw [compileExpr_Number] at h
      cases h
      rfl
    | Variable name =>
      rw [compileExpr_Variable] at h
      unfold compileVariableB at h
      cases hv : varsGet σ.vars name <;> rw [hv] at h
      · simp at h
      · cases h
        rfl
    | Binary op l r =>
      have hl : ScopeFree l := by cases hsf; assumption
      have hr : ScopeFree r := by cases hsf; assumption
      rw [compileExpr_Binary] at h
      unfold compileBinaryB at h
      by_cases he : op = '='
      · rw [if_pos he] at h
        cases l with
        | Variable vn =>
          obtain ⟨rv, σ1, h1, h⟩ := CompRes.bind_eq_ok h
          cases hv : varsGet σ1.vars vn <;> rw [hv] at h
          · simp at h
          · cases h
            exact ih r σ _ σ1 hr h1
        | Number q => simp at h
        | Binary op2 a b => simp at h
        | Call f2 as => simp at h
        | Conditional a b c2 => simp at h
        | For a b c2 d e2 => simp at h
        | VarIn a b => simp at h
      · rw [if_neg he] at h
        obtain ⟨lv, σ1, h1, h⟩ := CompRes.bind_eq_ok h
        obtain ⟨rv, σ2, h2, h⟩ := CompRes.bind_eq_ok h
        have e21 : σ2.vars = σ.vars :=
          (ih r σ1 rv σ2 hr h2).trans (ih l σ lv σ1 hl h1)
        repeat' split at h
        all_goals first
          | (cases h; exact e21)
          | simp at h
    | Call fname args =>
      have hall : ∀ a ∈ args, ScopeFree a := by cases hsf; assumption
      rw [compileExpr_Call] at h
      unfold compileCallB at h
      cases hm : modGet σ.module fname <;> rw [hm] at h
      · simp at h
      · obtain ⟨vs, σ1, hA, h⟩ := CompRes.bind_eq_ok h
        cases h
        exact ihArgs args hall [] σ vs σ1 hA
    | Conditional c t el =>
      have hc : ScopeFree c := by cases hsf; assumption
      have ht : ScopeFree t := by cases hsf; assumption
      have hel : ScopeFree el := by cases hsf; assumption
      rw [compileExpr_Conditional] at h
      unfold compileCondB at h
      cases hf : σ.fnValue <;> rw [hf] at h
      · simp at h
      · obtain ⟨cv, σ1, h1, h⟩ := CompRes.bind_eq_ok h
        simp only [emit, appendBlock, positionAtEnd] at h
        obtain ⟨tv, σ7, h2, h⟩ := CompRes.bind_eq_ok h
        cases hcb : σ7.curBlock <;> rw [hcb] at h
        · simp at h
        · obtain ⟨ev, σ10, h3, h⟩ := CompRes.bind_eq_ok h
          cases hcb2 : σ10.curBlock <;> rw [hcb2] at h
          · simp at h
          · cases h
            have ec : σ1.vars = σ.vars := ih c _ _ _ hc h1
            have et0 := ih t _ _ _ ht h2
            have et : σ7.vars = σ1.vars := et0
            have eel0 := ih el _ _ _ hel h3
            have eel : σ10.vars = σ7.vars := eel0
            exact eel.trans (et.trans ec)
    | For n s en stp b => cases hsf
    | VarIn bindings body => cases hsf

/-- Every entry of the `variables` map is keyed by the name its slot was
allocated with.  This holds at the empty initial map and is preserved by
every map operation the compiler performs, because each insert uses the
slot's own name (or `binding.get_name()`, which equals it) as the key. -/
@[reducible] def VarsNamed (m : List (String × Slot)) : Prop :=
  ∀ p ∈ m, (p.2).name = p.1

/-- `HashMap::remove` leaves every other key untouched. -/
theorem varsGet_remove_other (m : List (String × Slot)) (k d : String)
    (hd : d ≠ k) : varsGet (varsRemove m k) d = varsGet m d := by
  induction m with
  | nil => rfl
  | cons p m ih =>
    obtain ⟨k1, s1⟩ := p
    by_cases hk : k1 = k
    · subst hk
      have hf : ((k1, s1).1 != k1) = false := by simp
      have hdk : (d == k1) = false := beq_eq_false_iff_ne.mpr hd
      simpa [varsRemove, varsGet, List.filter_cons, hf, List.lookup, hdk]
        using ih
    · have hf : ((k1, s1).1 != k) = true := by simp [hk]
      cases hdk : d == k1 with
      | true =>
        simp [varsRemove, varsGet, List.filter_cons, hf, List.lookup, hdk]
      | false =>
        simpa [varsRemove, varsGet, List.filter_cons, hf, List.lookup, hdk]
          using ih

/-- `HashMap::insert` leaves every other key untouched. -/
theorem varsGet_insert_other (m : List (String × Slot)) (k : String)
    (s : Slot) (d : String) (hd : d ≠ k) :
    varsGet (varsInsert m k s) d = varsGet m d := by
  have hdk : (d == k) = false := beq_eq_false_iff_ne.mpr hd
  simp only [varsGet, varsInsert, List.lookup, hdk]
  exact varsGet_remove_other m k d hd

/-- `HashMap::insert` never removes a key that was present. -/
theorem varsGet_insert_pres (m : List (String × Slot)) (k : String)
    (s : Slot) (d : String) (h : ∃ t, varsGet m d = some t) :
    ∃ t, varsGet (varsInsert m k s) d = some t := by
  by_cases hd : d = k
  · subst hd
    exact ⟨s, varsGet_insert_self m d s⟩
  · rw [varsGet_insert_other m k s d hd]
    exact h

/-- In a self-keyed map, a successful lookup returns a slot carrying the
looked-up name. -/
theorem varsNamed_lookup {m : List (String × Slot)} {k : String} {s : Slot}
    (hv : VarsNamed m) (hl : varsGet m k = some s) : s.name = k := by
  induction m with
  | nil => simp [varsGet, List.lookup] at hl
  | cons p m ih =>
    obtain ⟨k1, s1⟩ := p
    by_cases hk : k = k1
    · subst hk
      simp only [varsGet, List.lookup, beq_self_eq_true] at hl
      cases hl
      exact hv (k, s) (by simp)
    · have hkb : (k == k1) = false := beq_eq_false_iff_ne.mpr hk
      simp only [varsGet, List.lookup, hkb] at hl
      exact ih (fun q hq => hv q (by simp [hq])) hl

/-- Inserting a slot under its own name keeps the map self-keyed. -/
theorem varsNamed_insert {m : List (String × Slot)} (hv : VarsNamed m)
    {k : String} {s : Slot} (hs : s.name = k) :
    VarsNamed (varsInsert m k s) := by
  intro p hp
  simp only [varsInsert, List.mem_cons] at hp
  rcases hp with hp | hp
  · subst hp
    exact hs
  · exact hv p (List.mem_of_mem_filter hp)

/-- Removing a key keeps the map self-keyed. -/
theorem varsNamed_remove {m : List (String × Slot)} (hv : VarsNamed m)
    (k : String) : VarsNamed (varsRemove m k) :=
  fun p hp => hv p (List.mem_of_mem_filter hp)

/-- A list of slots none of which carries name `n` filters to nothing. -/
theorem filter_name_nil {L : List Slot} {n : String}
    (h : ∀ b ∈ L, b.name ≠ n) :
    L.filter (fun x => x.name == n) = [] := by
  induction L with
  | nil => rfl
  | cons b L ih =>
    have hbn : b.name ≠ n := h b (by simp)
    rw [List.filter_cons_of_neg (by simp [hbn])]
    exact ih fun c hc => h c (by simp [hc])

theorem restoreBindings_cons (σ : CompState) (b : Slot) (L : List Slot) :
    restoreBindings σ (b :: L)
      = restoreBindings { σ with vars := varsInsert σ.vars b.name b } L := rfl

/-- Restoring bindings none of which is named `n` leaves `n`'s entry as
the body left it. -/
theorem restoreBindings_lookup_none :
    ∀ (L : List Slot) (σ : CompState) (n : String),
      L.filter (fun x => x.name == n) = [] →
      varsGet (restoreBindings σ L).vars n = varsGet σ.vars n := by
  intro L
  induction L with
  | nil => intro σ n _; rfl
  | cons b L ih =>
    intro σ n hf
    by_cases hb : b.name = n
    · rw [List.filter_cons_of_pos (by simp [hb])] at hf
      cases hf
    · rw [List.filter_cons_of_neg (by simp [hb])] at hf
      rw [restoreBindings_cons, ih _ n hf]
      exact varsGet_insert_other _ _ _ _ (Ne.symm hb)

/-- The restore loop inserts in order, so the LAST saved binding named `n`
wins and determines `n`'s entry. -/
theorem restoreBindings_lookup_last :
    ∀ (L : List Slot) (σ : CompState) (n : String) (b : Slot),
      (L.filter (fun x => x.name == n)).getLast? = some b →
      varsGet (restoreBindings σ L).vars n = some b := by
  intro L
  induction L with
  | nil => intro σ n b h; simp at h
  | cons c L ih =>
    intro σ n b h
    by_cases hc : c.name = n
    · rw [List.filter_cons_of_pos (by simp [hc])] at h
      cases hF : L.filter (fun x => x.name == n) with
      | nil =>
        rw [hF, List.getLast?_singleton] at h
        cases h
        rw [restoreBindings_cons, restoreBindings_lookup_none L _ n hF, hc]
        exact varsGet_insert_self _ _ _
      | cons d F =>
        rw [hF, List.getLast?_cons_cons] at h
        rw [restoreBindings_cons]
        exact ih _ n b (by rw [hF]; exact h)
    · rw [List.filter_cons_of_neg (by simp [hc])] at h
      rw [restoreBindings_cons]
      exact ih _ n b h

/-- The restore loop inserts each saved binding under its own name, so it
keeps the map self-keyed whatever the saved slots are. -/
theorem restoreBindings_varsNamed :
    ∀ (L : List Slot) (σ : CompState), VarsNamed σ.vars →
      VarsNamed (restoreBindings σ L).vars := by
  intro L
  induction L with
  | nil => intro σ h; exact h
  | cons b L ih =>
    intro σ h
    rw [restoreBindings_cons]
    exact ih _ (varsNamed_insert h rfl)

/-- The restore loop only inserts, so every present key stays present. -/
theorem restoreBindings_present :
    ∀ (L : List Slot) (σ : CompState) (k : String),
      (∃ s, varsGet σ.vars k = some s) →
      ∃ s, varsGet (restoreBindings σ L).vars k = some s := by
  intro L
  induction L with
  | nil => intro σ k h; exact h
  | cons b L ih =>
    intro σ k h
    rw [restoreBindings_cons]
    exact ih _ k (varsGet_insert_pres _ _ _ _ h)

/-- The `for` epilogue touches only the induction variable's entry. -/
theorem forLoopEpilogue_vars_other (σ9 : CompState) (slot : Slot)
    (stepv endv : Value) (lb : Nat) (n : String) (oldVal : Option Slot)
    (k : String) (hk : k ≠ n) :
    varsGet (forLoopEpilogue σ9 slot stepv endv lb n oldVal).vars k
      = varsGet σ9.vars k := by
  cases oldVal with
  | some old =>
    simp [forLoopEpilogue, emit, appendBlock, positionAtEnd,
      varsGet_insert_other _ _ _ _ hk, varsGet_remove_other _ _ _ hk]
  | none =>
    simp [forLoopEpilogue, emit, appendBlock, positionAtEnd,
      varsGet_remove_other _ _ _ hk]

/-- The `for` epilogue keeps the map self-keyed, as long as the restored
`old_val` (when present) carries the induction variable's name. -/
theorem forLoopEpilogue_varsNamed (σ9 : CompState) (slot : Slot)
    (stepv endv : Value) (lb : Nat) (n : String) (oldVal : Option Slot)
    (h9 : VarsNamed σ9.vars)
    (hold : ∀ b, oldVal = some b → b.name = n) :
    VarsNamed (forLoopEpilogue σ9 slot stepv endv lb n oldVal).vars := by
  cases oldVal with
  | some old =>
    have hshape : (forLoopEpilogue σ9 slot stepv endv lb n (some old)).vars
        = varsInsert (varsRemove σ9.vars n) n old := by
      simp [forLoopEpilogue, emit, appendBlock, positionAtEnd]
    rw [hshape]
    exact varsNamed_insert (varsNamed_remove h9 n) (hold old rfl)
  | none =>
    have hshape : (forLoopEpilogue σ9 slot stepv endv lb n none).vars
        = varsRemove σ9.vars n := by
      simp [forLoopEpilogue, emit, appendBlock, positionAtEnd]
    rw [hshape]
    exact varsNamed_remove h9 n

/-- The binding loop over a concatenated list is the loop over the first
part followed by the loop over the second, threading state and the saved
bindings. -/
theorem compileBindings_append (go : CompileGo) :
    ∀ (bs1 bs2 : List (String × Option Expr)) (olds : List Slot)
      (σ : CompState) (olds' : List Slot) (σ' : CompState),
      compileBindings go (bs1 ++ bs2) olds σ = .ok olds' σ' →
      ∃ om σm, compileBindings go bs1 olds σ = .ok om σm ∧
        compileBindings go bs2 om σm = .ok olds' σ' := by
  intro bs1
  induction bs1 with
  | nil =>
    intro bs2 olds σ olds' σ' h
    exact ⟨olds, σ, rfl, h⟩
  | cons p bs1 ih =>
    intro bs2 olds σ olds' σ' h
    obtain ⟨name, ini?⟩ := p
    rw [List.cons_append] at h
    unfold compileBindings at h
    obtain ⟨v, σ1, hi, h⟩ := CompRes.bind_eq_ok h
    obtain ⟨slot, σ2, ha, h⟩ := CompRes.bind_eq_ok h
    obtain ⟨om, σm, h1, h2⟩ := ih bs2 _ _ _ _ h
    refine ⟨om, σm, ?_, h2⟩
    unfold compileBindings
    rw [hi]
    simp only [CompRes.bind]
    rw [ha]
    simp only [CompRes.bind]
    exact h1

/-- Invariants of the `var..in` binding loop: it keeps the map self-keyed
and every present key present, and it only appends to the saved-bindings
accumulator, each appended slot carrying the name of one of the processed
bindings. -/
theorem compileBindings_spec (go : CompileGo)
    (hgo : ∀ e σ v σ', go e σ = .ok v σ' → VarsNamed σ.vars →
      VarsNamed σ'.vars ∧
      ∀ k, (∃ s, varsGet σ.vars k = some s) →
        ∃ s, varsGet σ'.vars k = some s) :
    ∀ (bs : List (String × Option Expr)) (olds : List Slot) (σ : CompState)
      (olds' : List Slot) (σ' : CompState),
      compileBindings go bs olds σ = .ok olds' σ' → VarsNamed σ.vars →
      VarsNamed σ'.vars ∧
      (∀ k, (∃ s, varsGet σ.vars k = some s) →
        ∃ s, varsGet σ'.vars k = some s) ∧
      ∃ saved, olds' = olds ++ saved ∧
        ∀ b ∈ saved, b.name ∈ bs.map Prod.fst := by
  intro bs
  induction bs with
  | nil =>
    intro olds σ olds' σ' h hv
    unfold compileBindings at h
    cases h
    exact ⟨hv, fun k hk => hk, [], by simp, by simp⟩
  | cons p bs ih =>
    intro olds σ olds' σ' h hv
    obtain ⟨name, ini?⟩ := p
    unfold compileBindings at h
    obtain ⟨v, σ1, hi, h⟩ := CompRes.bind_eq_ok h
    have hstep : VarsNamed σ1.vars ∧
        ∀ k, (∃ s, varsGet σ.vars k = some s) →
          ∃ s, varsGet σ1.vars k = some s := by
      cases hio : ini? with
      | none =>
        rw [hio] at hi
        cases hi
        exact ⟨hv, fun k hk => hk⟩
      | some i =>
        rw [hio] at hi
        exact hgo i σ v σ1 hi hv
    obtain ⟨slot, σ2, ha, h⟩ := CompRes.bind_eq_ok h
    obtain ⟨hv2eq, hsname, -⟩ := entryAlloca_ok ha
    have hvn2 : VarsNamed σ2.vars := by
      rw [hv2eq]
      exact hstep.1
    have hvn4 : VarsNamed (varsInsert (varsRemove σ2.vars name) name slot) :=
      varsNamed_insert (varsNamed_remove hvn2 name) hsname
    have hpres4 : ∀ k, (∃ s, varsGet σ.vars k = some s) →
        ∃ s, varsGet (varsInsert (varsRemove σ2.vars name) name slot) k
          = some s := by
      intro k hk
      by_cases hkn : k = name
      · subst hkn
        exact ⟨slot, varsGet_insert_self _ _ _⟩
      · rw [varsGet_insert_other _ _ _ _ hkn,
          varsGet_remove_other _ _ _ hkn, hv2eq]
        exact hstep.2 k hk
    simp only [emit] at h
    cases hold : varsGet σ2.vars name with
    | some old =>
      rw [hold] at h
      obtain ⟨hvn', hpres', saved', heq', hnames'⟩ := ih _ _ _ _ h hvn4
      refine ⟨hvn', fun k hk => hpres' k (hpres4 k hk),
        old :: saved', ?_, ?_⟩
      · rw [heq', List.append_assoc]
        rfl
      · intro b hb
        simp only [List.map_cons, List.mem_cons]
        rcases List.mem_cons.mp hb with hb | hb
        · subst hb
          exact Or.inl (varsNamed_lookup hvn2 hold)
        · exact Or.inr (hnames' b hb)
    | none =>
      rw [hold] at h
      obtain ⟨hvn', hpres', saved', heq', hnames'⟩ := ih _ _ _ _ h hvn4
      refine ⟨hvn', fun k hk => hpres' k (hpres4 k hk), saved', heq', ?_⟩
      intro b hb
      simp only [List.map_cons, List.mem_cons]
      exact Or.inr (hnames' b hb)

/-- Compiling ANY expression keeps the variables map self-keyed and never
removes a present key (the only removals, in `for` and `var..in`, are
followed by an insert or a restore of the same key on every success
path). -/
theorem compile_vars_wf :
    ∀ fuel e σ v σ', compileExpr fuel e σ = .ok v σ' → VarsNamed σ.vars →
      VarsNamed σ'.vars ∧
      ∀ k, (∃ s, varsGet σ.vars k = some s) →
        ∃ s, varsGet σ'.vars k = some s := by
  intro fuel
  induction fuel with
  | zero =>
    intro e σ v σ' h _
    rw [compileExpr_zero] at h
    simp at h
  | succ fuel ih =>
    have ihArgs : ∀ (args : List Expr) acc σ vs σ',
        compileArgs (compileExpr fuel) args acc σ = .ok vs σ' →
        VarsNamed σ.vars → VarsNamed σ'.vars ∧
        ∀ k, (∃ s, varsGet σ.vars k = some s) →
          ∃ s, varsGet σ'.vars k = some s := by
      intro args
      induction args with
      | nil =>
        intro acc σ vs σ' h hv
        unfold compileArgs at h
        cases h
        exact ⟨hv, fun k hk => hk⟩
      | cons a rest ihr =>
        intro acc σ vs σ' h hv
        unfold compileArgs at h
        obtain ⟨v1, σ1, hA, h⟩ := CompRes.bind_eq_ok h
        have m1 := ih a σ v1 σ1 hA hv
        have m2 := ihr _ _ _ _ h m1.1
        exact ⟨m2.1, fun k hk => m2.2 k (m1.2 k hk)⟩
    intro e σ v σ' h hv
    cases e with
    | Number q =>
      rw [compileExpr_Number] at h
      cases h
      exact ⟨hv, fun k hk => hk⟩
    | Variable name =>
      rw [compileExpr_Variable] at h
      unfold compileVariableB at h
      cases hvg : varsGet σ.vars name <;> rw [hvg] at h
      · simp at h
      · cases h
        exact ⟨hv, fun k hk => hk⟩
    | VarIn bindings body =>
      rw [compileExpr_VarIn] at h
      unfold compileVarInB at h
      obtain ⟨olds, σ1, hb, h⟩ := CompRes.bind_eq_ok h
      obtain ⟨bv, σ2, hbody, h⟩ := CompRes.bind_eq_ok h
      cases h
      have hB := compileBindings_spec (compileExpr fuel) ih bindings [] σ
        olds σ1 hb hv
      have hM := ih body σ1 _ σ2 hbody hB.1
      refine ⟨restoreBindings_varsNamed olds σ2 hM.1, ?_⟩
      intro k hk
      exact restoreBindings_present olds σ2 k (hM.2 k (hB.2.1 k hk))
    | Binary op l r =>
      rw [compileExpr_Binary] at h
      unfold compileBinaryB at h
      by_cases he : op = '='
      · rw [if_pos he] at h
        cases l with
        | Variable vn =>
          obtain ⟨rv, σ1, h1, h⟩ := CompRes.bind_eq_ok h
          have mr := ih r σ rv σ1 h1 hv
          cases hvg : varsGet σ1.vars vn <;> rw [hvg] at h
          · simp at h
          · cases h
            exact ⟨mr.1, mr.2⟩
        | Number q => simp at h
        | Binary op2 a b => simp at h
        | Call f2 as => simp at h
        | Conditional a b c2 => simp at h
        | For a b c2 d e2 => simp at h
        | VarIn a b => simp at h
      · rw [if_neg he] at h
        obtain ⟨lv, σ1, h1, h⟩ := CompRes.bind_eq_ok h
        obtain ⟨rv, σ2, h2, h⟩ := CompRes.bind_eq_ok h
        have m1 := ih l σ lv σ1 h1 hv
        have m2 := ih r σ1 rv σ2 h2 m1.1
        have mfin : VarsNamed σ2.vars ∧
            ∀ k, (∃ s, varsGet σ.vars k = some s) →
              ∃ s, varsGet σ2.vars k = some s :=
          ⟨m2.1, fun k hk => m2.2 k (m1.2 k hk)⟩
        repeat' split at h
        all_goals first
          | (cases h; exact mfin)
          | simp at h
    | Call fname args =>
      rw [compileExpr_Call] at h
      unfold compileCallB at h
      cases hm : modGet σ.module fname <;> rw [hm] at h
      · simp at h
      · obtain ⟨vs, σ1, hA, h⟩ := CompRes.bind_eq_ok h
        cases h
        exact ihArgs args [] σ vs σ1 hA hv
    | Conditional c t el =>
      rw [compileExpr_Conditional] at h
      unfold compileCondB at h
      cases hf : σ.fnValue <;> rw [hf] at h
      · simp at h
      · obtain ⟨cv, σ1, h1, h⟩ := CompRes.bind_eq_ok h
        simp only [emit, appendBlock, positionAtEnd] at h
        obtain ⟨tv, σ7, h2, h⟩ := CompRes.bind_eq_ok h
        cases hcb : σ7.curBlock <;> rw [hcb] at h
        · simp at h
        · obtain ⟨ev, σ10, h3, h⟩ := CompRes.bind_eq_ok h
          cases hcb2 : σ10.curBlock <;> rw [hcb2] at h
          · simp at h
          · cases h
            have m1 := ih c σ cv σ1 h1 hv
            have m2 := ih t _ tv σ7 h2 m1.1
            have m3 := ih el _ ev σ10 h3 m2.1
            exact ⟨m3.1, fun k hk => m3.2 k (m2.2 k (m1.2 k hk))⟩
    | For n s en stp b =>
      rw [compileExpr_For] at h
      unfold compileForB at h
      cases hf : σ.fnValue <;> rw [hf] at h
      · simp at h
      · obtain ⟨slot, σ1, h1, h⟩ := CompRes.bind_eq_ok h
        obtain ⟨sv, σ2, h2, h⟩ := CompRes.bind_eq_ok h
        simp only [] at h
        obtain ⟨bv, σ7, h3, h⟩ := CompRes.bind_eq_ok h
        obtain ⟨stepv, σ8, h4, h⟩ := CompRes.bind_eq_ok h
        obtain ⟨endv, σ9, h5, h⟩ := CompRes.bind_eq_ok h
        cases h
        obtain ⟨ha1, ha2, -⟩ := entryAlloca_ok h1
        have hvn1 : VarsNamed σ1.vars := by
          rw [ha1]
          exact hv
        have m2 := ih s σ1 sv σ2 h2 hvn1
        have hp1 : (forLoopPrologue σ2 slot sv n).1.vars
            = varsInsert (varsRemove σ2.vars n) n slot := rfl
        have hp2 : (forLoopPrologue σ2 slot sv n).2.1
            = varsGet σ2.vars n := rfl
        have hvn6 : VarsNamed (forLoopPrologue σ2 slot sv n).1.vars := by
          rw [hp1]
          exact varsNamed_insert (varsNamed_remove m2.1 n) ha2
        have m3 := ih b _ bv σ7 h3 hvn6
        have m4 : VarsNamed σ8.vars ∧
            ∀ k, (∃ t, varsGet σ7.vars k = some t) →
              ∃ t, varsGet σ8.vars k = some t := by
          cases hst : stp with
          | none =>
            rw [hst] at h4
            cases h4
            exact ⟨m3.1, fun k hk => hk⟩
          | some se =>
            rw [hst] at h4
            exact ih se σ7 stepv σ8 h4 m3.1
        have m5 := ih en σ8 endv σ9 h5 m4.1
        constructor
        · apply forLoopEpilogue_varsNamed _ _ _ _ _ _ _ m5.1
          intro bb hbb
          rw [hp2] at hbb
          exact varsNamed_lookup m2.1 hbb
        · intro k hk
          have hk1 : ∃ t, varsGet σ1.vars k = some t := by
            rw [ha1]
            exact hk
          by_cases hkn : k = n
          · subst hkn
            rw [forLoopEpilogue_varsGet, hp2]
            exact m2.2 _ hk1
          · rw [forLoopEpilogue_vars_other _ _ _ _ _ _ _ _ hkn]
            have hk6 : ∃ t,
                varsGet (forLoopPrologue σ2 slot sv n).1.vars k = some t := by
              rw [hp1, varsGet_insert_other _ _ _ _ hkn,
                varsGet_remove_other _ _ _ hkn]
              exact m2.2 k hk1
            exact m5.2 k (m4.2 k (m3.2 k hk6))

/-- C2 counterexample: lowering `var x = 1 in 2` from a state with NO
prior binding of `x` leaves `x` bound to the scope's slot in the
`variables` map after the scope ends — the entry is NOT removed, contrary
to the claim (`old_bindings` only re-inserts bindings that existed
before; nothing deletes the fresh one). -/
theorem c2_varin_entry_not_removed_counterexample :
    compileExpr 3 (.VarIn [("x", some (.Number 1))] (.Number 2))
        ⟨[], [], [], 0, some ⟨99, "f", 0⟩, [50], some 50⟩
      = .ok (.constF 2)
          ⟨[], [.allocaEntry 0 "x", .storeEv 0 (.constF 1)],
           [("x", ⟨0, "x"⟩)], 1, some ⟨99, "f", 0⟩, [50], some 50⟩ ∧
    varsGet [("x", (⟨0, "x"⟩ : Slot))] "x" = some ⟨0, "x"⟩ ∧
    ¬ varsGet [("x", (⟨0, "x"⟩ : Slot))] "x" = none := by
  refine ⟨by decide, by decide, by decide⟩

/-- C2 (amended): scope save/restore of the variables map.
(1) After a `for` loop the induction variable's entry equals whatever it
was right after the start value was compiled: the prior binding is
restored when one existed and the entry is removed when none did.
(2) When a `var..in` scope ends, each name it binds exactly once whose
processing found a prior binding — the pre-scope binding unless an
earlier initializer of the same scope rebound the name — gets that
binding restored verbatim (the incoming map being self-keyed).
(3) Each such name whose processing found NO prior binding keeps an entry
in the map when the scope ends: it is NOT removed, whatever the body and
the later bindings did, and the surviving slot carries the name.
(4) Refinement of (3): for a single-binding scope whose body introduces
no nested scope the surviving entry is exactly the scope's own fresh
slot. -/
theorem c2_scope_save_restore :
    (∀ fuel n s en stp b σ v σ',
        compileExpr (fuel + 1) (.For n s en stp b) σ = .ok v σ' →
        ∃ slot σ1 sv σ2,
          entryAlloca σ n = .ok slot σ1 ∧
          compileExpr fuel s σ1 = .ok sv σ2 ∧
          varsGet σ'.vars n = varsGet σ2.vars n) ∧
    (∀ fuel pre n ini? post body σ v σ' oldsP σP vi σI slot σA old,
        compileExpr (fuel + 1) (.VarIn (pre ++ (n, ini?) :: post) body) σ
          = .ok v σ' →
        VarsNamed σ.vars →
        n ∉ pre.map Prod.fst →
        n ∉ post.map Prod.fst →
        compileBindings (compileExpr fuel) pre [] σ = .ok oldsP σP →
        ((match ini? with
          | some ini => compileExpr fuel ini σP
          | none => .ok (.constF 0) σP) : CompRes Value) = .ok vi σI →
        entryAlloca σI n = .ok slot σA →
        varsGet σI.vars n = some old →
        varsGet σ'.vars n = some old) ∧
    (∀ fuel pre n ini? post body σ v σ' oldsP σP vi σI slot σA,
        compileExpr (fuel + 1) (.VarIn (pre ++ (n, ini?) :: post) body) σ
          = .ok v σ' →
        VarsNamed σ.vars →
        n ∉ pre.map Prod.fst →
        n ∉ post.map Prod.fst →
        compileBindings (compileExpr fuel) pre [] σ = .ok oldsP σP →
        ((match ini? with
          | some ini => compileExpr fuel ini σP
          | none => .ok (.constF 0) σP) : CompRes Value) = .ok vi σI →
        entryAlloca σI n = .ok slot σA →
        varsGet σI.vars n = none →
        ∃ s, varsGet σ'.vars n = some s ∧ s.name = n) ∧
    (∀ fuel name ini? body σ v σ' vi σ1,
        compileExpr (fuel + 1) (.VarIn [(name, ini?)] body) σ = .ok v σ' →
        ((match ini? with
          | some ini => compileExpr fuel ini σ
          | none => .ok (.constF 0) σ) : CompRes Value) = .ok vi σ1 →
        varsGet σ1.vars name = none →
        ScopeFree body →
        ∃ slot, varsGet σ'.vars name = some slot ∧ slot.name = name ∧
          slot.id = σ1.nextId) := by
  refine ⟨?_, ?_, ?_, ?_⟩
  · intro fuel n s en stp b σ v σ' h
    rw [compileExpr_For] at h
    unfold compileForB at h
    cases hf : σ.fnValue with
    | none => rw [hf] at h; simp at h
    | some fv =>
      rw [hf] at h
      obtain ⟨slot, σ1, h1, h⟩ := CompRes.bind_eq_ok h
      obtain ⟨sv, σ2, h2, h⟩ := CompRes.bind_eq_ok h
      simp only [] at h
      obtain ⟨bv, σ7, h3, h⟩ := CompRes.bind_eq_ok h
      obtain ⟨stepv, σ8, h4, h⟩ := CompRes.bind_eq_ok h
      obtain ⟨endv, σ9, h5, h⟩ := CompRes.bind_eq_ok h
      cases h
      refine ⟨slot, σ1, sv, σ2, h1, h2, ?_⟩
      rw [forLoopEpilogue_varsGet]
      rfl
  · intro fuel pre n ini? post body σ v σ' oldsP σP vi σI slot σA old
    intro h hvn hnp hns hpre hini halloc hprior
    rw [compileExpr_VarIn] at h
    unfold compileVarInB at h
    obtain ⟨olds, σA2, hball, h⟩ := CompRes.bind_eq_ok h
    obtain ⟨bv, σB, hbody, h⟩ := CompRes.bind_eq_ok h
    cases h
    obtain ⟨om, σm, hb1, hb2⟩ := compileBindings_append (compileExpr fuel)
      pre ((n, ini?) :: post) [] σ olds σA2 hball
    rw [hpre] at hb1
    cases hb1
    unfold compileBindings at hb2
    obtain ⟨vi', σI', hini', hb2⟩ := CompRes.bind_eq_ok hb2
    have hdet : (CompRes.ok vi σI : CompRes Value) = .ok vi' σI' :=
      hini.symm.trans hini'
    cases hdet
    obtain ⟨slot', σA', halloc', hb2⟩ := CompRes.bind_eq_ok hb2
    rw [halloc] at halloc'
    cases halloc'
    have hvA : σA.vars = σI.vars := (entryAlloca_ok halloc).1
    simp only [emit] at hb2
    rw [hvA, hprior] at hb2
    have hP := compileBindings_spec (compileExpr fuel)
      (fun e σ0 v0 σ0' h0 hv0 => compile_vars_wf fuel e σ0 v0 σ0' h0 hv0)
      pre [] σ oldsP σP hpre hvn
    have hvnI : VarsNamed σI.vars := by
      cases hio : ini? with
      | none =>
        rw [hio] at hini
        cases hini
        exact hP.1
      | some i =>
        rw [hio] at hini
        exact (compile_vars_wf fuel i σP vi σI hini hP.1).1
    have holdn : old.name = n := varsNamed_lookup hvnI hprior
    have hvn4 : VarsNamed (varsInsert (varsRemove σI.vars n) n slot) :=
      varsNamed_insert (varsNamed_remove hvnI n) (entryAlloca_ok halloc).2.1
    have hQ := compileBindings_spec (compileExpr fuel)
      (fun e σ0 v0 σ0' h0 hv0 => compile_vars_wf fuel e σ0 v0 σ0' h0 hv0)
      post (oldsP ++ [old]) _ olds σA2 hb2 hvn4
    obtain ⟨hvnA2, hpresQ, savedQ, hQeq, hQnames⟩ := hQ
    obtain ⟨-, -, savedP, hPeq, hPnames⟩ := hP
    have hfP : oldsP.filter (fun x => x.name == n) = [] := by
      apply filter_name_nil
      intro b hb
      have hbn : b.name ∈ pre.map Prod.fst := by
        apply hPnames
        rw [hPeq] at hb
        simpa using hb
      intro hcon
      rw [hcon] at hbn
      exact hnp hbn
    have hfQ : savedQ.filter (fun x => x.name == n) = [] := by
      apply filter_name_nil
      intro b hb
      have hbn := hQnames b hb
      intro hcon
      rw [hcon] at hbn
      exact hns hbn
    have hfilter : olds.filter (fun x => x.name == n) = [old] := by
      rw [hQeq, List.filter_append, List.filter_append, hfP, hfQ]
      simp [holdn]
    apply restoreBindings_lookup_last olds σB n old
    rw [hfilter]
    simp
  · intro fuel pre n ini? post body σ v σ' oldsP σP vi σI slot σA
    intro h hvn hnp hns hpre hini halloc hprior
    rw [compileExpr_VarIn] at h
    unfold compileVarInB at h
    obtain ⟨olds, σA2, hball, h⟩ := CompRes.bind_eq_ok h
    obtain ⟨bv, σB, hbody, h⟩ := CompRes.bind_eq_ok h
    cases h
    obtain ⟨om, σm, hb1, hb2⟩ := compileBindings_append (compileExpr fuel)
      pre ((n, ini?) :: post) [] σ olds σA2 hball
    rw [hpre] at hb1
    cases hb1
    unfold compileBindings at hb2
    obtain ⟨vi', σI', hini', hb2⟩ := CompRes.bind_eq_ok hb2
    have hdet : (CompRes.ok vi σI : CompRes Value) = .ok vi' σI' :=
      hini.symm.trans hini'
    cases hdet
    obtain ⟨slot', σA', halloc', hb2⟩ := CompRes.bind_eq_ok hb2
    rw [halloc] at halloc'
    cases halloc'
    have hvA : σA.vars = σI.vars := (entryAlloca_ok halloc).1
    simp only [emit] at hb2
    rw [hvA, hprior] at hb2
    have hP := compileBindings_spec (compileExpr fuel)
      (fun e σ0 v0 σ0' h0 hv0 => compile_vars_wf fuel e σ0 v0 σ0' h0 hv0)
      pre [] σ oldsP σP hpre hvn
    have hvnI : VarsNamed σI.vars := by
      cases hio : ini? with
      | none =>
        rw [hio] at hini
        cases hini
        exact hP.1
      | some i =>
        rw [hio] at hini
        exact (compile_vars_wf fuel i σP vi σI hini hP.1).1
    have hvn4 : VarsNamed (varsInsert (varsRemove σI.vars n) n slot) :=
      varsNamed_insert (varsNamed_remove hvnI n) (entryAlloca_ok halloc).2.1
    have hQ := compileBindings_spec (compileExpr fuel)
      (fun e σ0 v0 σ0' h0 hv0 => compile_vars_wf fuel e σ0 v0 σ0' h0 hv0)
      post oldsP _ olds σA2 hb2 hvn4
    obtain ⟨hvnA2, hpresQ, savedQ, hQeq, hQnames⟩ := hQ
    obtain ⟨-, -, savedP, hPeq, hPnames⟩ := hP
    have hp4 : ∃ s, varsGet (varsInsert (varsRemove σI.vars n) n slot) n
        = some s := ⟨slot, varsGet_insert_self _ _ _⟩
    have hpA2 := hpresQ n hp4
    have hMB := compile_vars_wf fuel body σA2 _ σB hbody hvnA2
    obtain ⟨s, hs⟩ := hMB.2 n hpA2
    refine ⟨s, ?_, varsNamed_lookup hMB.1 hs⟩
    have hfP : oldsP.filter (fun x => x.name == n) = [] := by
      apply filter_name_nil
      intro b hb
      have hbn : b.name ∈ pre.map Prod.fst := by
        apply hPnames
        rw [hPeq] at hb
        simpa using hb
      intro hcon
      rw [hcon] at hbn
      exact hnp hbn
    have hfQ : savedQ.filter (fun x => x.name == n) = [] := by
      apply filter_name_nil
      intro b hb
      have hbn := hQnames b hb
      intro hcon
      rw [hcon] at hbn
      exact hns hbn
    have hfilter : olds.filter (fun x => x.name == n) = [] := by
      rw [hQeq, List.filter_append, hfP, hfQ]
      rfl
    rw [restoreBindings_lookup_none olds σB n hfilter]
    exact hs
  · intro fuel name ini? body σ v σ' vi σ1 h hini hprior hsf
    rw [compileExpr_VarIn] at h
    unfold compileVarInB compileBindings at h
    obtain ⟨olds, σA, hbind, h⟩ := CompRes.bind_eq_ok h
    obtain ⟨vi', σ1', hini', hbind⟩ := CompRes.bind_eq_ok hbind
    rw [hini] at hini'
    cases hini'
    obtain ⟨slot, σ2, halloc, hbind⟩ := CompRes.bind_eq_ok hbind
    obtain ⟨hv2, hsname, hsid⟩ := entryAlloca_ok halloc
    simp only [emit] at hbind
    rw [hv2, hprior] at hbind
    unfold compileBindings at hbind
    cases hbind
    obtain ⟨bv, σB, hbody, h⟩ := CompRes.bind_eq_ok h
    cases h
    have hpres := scopeFree_vars_eq fuel body _ _ σB hsf hbody
    refine ⟨slot, ?_, hsname, hsid⟩
    simp only [restoreBindings, List.foldl]
    rw [hpres]
    exact varsGet_insert_self _ _ _

/-- Witness inputs for the amended C2 theorem. -/
def c2σA : CompState :=
  ⟨[], [], [("i", ⟨77, "i"⟩)], 0, some ⟨99, "f", 0⟩, [50], some 50⟩

def c2eA : Expr := .For "i" (.Number 0) (.Variable "i") none (.Number 1)

def c2resA : CompRes Value := compileExpr 3 c2eA c2σA

def c2vA : Value := match c2resA with | .ok v _ => v | _ => .constF 99

def c2stA : CompState := match c2resA with | .ok _ s => s | _ => c2σA

def c2σB : CompState :=
  ⟨[], [], [("x", ⟨77, "x"⟩)], 0, some ⟨99, "f", 0⟩, [50], some 50⟩

def c2eB : Expr := .VarIn [("x", some (.Number 1))] (.Number 2)

def c2resB : CompRes Value := compileExpr 3 c2eB c2σB

def c2vB : Value := match c2resB with | .ok v _ => v | _ => .constF 99

def c2stB : CompState := match c2resB with | .ok _ s => s | _ => c2σB

def c2σC : CompState := ⟨[], [], [], 0, some ⟨99, "f", 0⟩, [50], some 50⟩

def c2resC : CompRes Value := compileExpr 3 c2eB c2σC

def c2vC : Value := match c2resC with | .ok v _ => v | _ => .constF 99

def c2stC : CompState := match c2resC with | .ok _ s => s | _ => c2σC

/-- Witness for the amended C2 theorem: a `for` loop, a `var..in` with a
prior binding of the bound name (restored verbatim), and the same
`var..in` without one (entry kept; by the refinement, it is the scope's
own slot). -/
theorem c2_scope_save_restore_witness :
    (∃ slot σ1 sv σ2,
      entryAlloca c2σA "i" = .ok slot σ1 ∧
      compileExpr 2 (.Number 0) σ1 = .ok sv σ2 ∧
      varsGet c2stA.vars "i" = varsGet σ2.vars "i") ∧
    varsGet c2stB.vars "x" = some ⟨77, "x"⟩ ∧
    (∃ s, varsGet c2stC.vars "x" = some s ∧ s.name = "x") ∧
    (∃ slot, varsGet c2stC.vars "x" = some slot ∧ slot.name = "x" ∧
      slot.id = c2σC.nextId) :=
  ⟨c2_scope_save_restore.1 2 "i" (.Number 0) (.Variable "i") none
      (.Number 1) c2σA c2vA c2stA rfl,
   c2_scope_save_restore.2.1 2 [] "x" (some (.Number 1)) [] (.Number 2)
      c2σB c2vB c2stB [] c2σB (.constF 1) c2σB ⟨0, "x"⟩
      ⟨[], [.allocaEntry 0 "x"], [("x", ⟨77, "x"⟩)], 1, some ⟨99, "f", 0⟩,
        [50], some 50⟩ ⟨77, "x"⟩
      rfl (by decide) (by decide) (by decide) rfl rfl (by decide)
      (by decide),
   c2_scope_save_restore.2.2.1 2 [] "x" (some (.Number 1)) [] (.Number 2)
      c2σC c2vC c2stC [] c2σC (.constF 1) c2σC ⟨0, "x"⟩
      ⟨[], [.allocaEntry 0 "x"], [], 1, some ⟨99, "f", 0⟩, [50], some 50⟩
      rfl (by decide) (by decide) (by decide) rfl rfl (by decide)
      (by decide),
   c2_scope_save_restore.2.2.2 2 "x" (some (.Number 1)) (.Number 2) c2σC
      c2vC c2stC (.constF 1) c2σC rfl rfl (by decide)
      (ScopeFree.number 2)⟩

/-- Witness for the amended C4 theorem at the concrete loop. -/
theorem c4_for_lowering_order_witness :
    ∃ slot σ1 sv σ2 bv σ7 stepv σ8 endv σ9,
      entryAlloca c4σ "i" = .ok slot σ1 ∧
      compileExpr 2 (.Number 0) σ1 = .ok sv σ2 ∧
      compileExpr 2 (.Number 1) (forLoopPrologue σ2 slot sv "i").1
        = .ok bv σ7 ∧
      (match (none : Option Expr) with
       | some se => compileExpr 2 se σ7
       | none => .ok (.constF 1) σ7) = .ok stepv σ8 ∧
      compileExpr 2 (.Variable "i") σ8 = .ok endv σ9 ∧
      c4v = .constF 0 ∧
      c4st = forLoopEpilogue σ9 slot stepv endv
        (forLoopPrologue σ2 slot sv "i").2.2 "i"
        (forLoopPrologue σ2 slot sv "i").2.1 ∧
      c4st.trace = σ9.trace ++
        [.loadEv slot.id σ9.nextId,
         .faddEv (.instrRef σ9.nextId) stepv (σ9.nextId + 1),
         .storeEv slot.id (.instrRef (σ9.nextId + 1)),
         .fcmpEv .ONE endv (.constF 0) (σ9.nextId + 2),
         .appendBlockEv (σ9.nextId + 3) "afterloop",
         .condbrEv (.instrRef (σ9.nextId + 2))
           (forLoopPrologue σ2 slot sv "i").2.2 (σ9.nextId + 3),
         .positionEv (σ9.nextId + 3)] :=
  c4_for_lowering_order 2 "i" (.Number 0) (.Variable "i") none (.Number 1)
    c4σ c4v c4st rfl

end Kal
